import Mathlib

/-!
# Verification of the go_encoder core against its specification

A shallow embedding, in Lean 4, of the parts of the `go_encoder` repository
that the specification's claims are about:

* `Models` — `models/encoder_result.go` and `models/chunk.go`;
* `Timeutil` — `internal/timeutil/timeutil.go`;
* `Chunker` — `chunker/chunker.go`;
* `Concatenator` — the concatenation finalizer (`concatenator/concatenator.go`);
* `Orchestrator` — the resource-constrained DAG orchestrator
  (`orchestrator/dag.go`), embedded as an explicit small-step transition
  system whose steps are the individual mutations the Go code performs
  under its mutexes.

Modelling conventions:

* Go `float64` times are modelled as exact rationals `ℚ`; the claims under
  scrutiny are about the algorithms, not about binary rounding of `float64`.
* Go `error` values are modelled as `Option String` / `Except String`.
* Go maps (`map[string]*Task`, `map[ResourceType]int`) are modelled as
  association lists updated in place (first matching key), respectively as
  total functions `String → Nat` with default `0`, which is exactly the
  read/write semantics the Go code relies on.
* Subprocess execution (`Command.Run`, `ffmpeg`) is external to the
  repository; its outcome enters the model as a nondeterministic step
  parameter (orchestrator) or an oracle argument (`fileExists`,
  concatenator).
-/

namespace Models

/-- Model of Go's `strings.TrimSpace`: strip leading and trailing whitespace.
It is implemented on the character list so that the kernel can evaluate it
on concrete strings. -/
def trimSpace (s : String) : String :=
  ⟨((s.data.dropWhile Char.isWhitespace).reverse.dropWhile Char.isWhitespace).reverse⟩

/-- `models.EncoderResult`: outcome of encoding a single chunk.
The Go `error` field is modelled as `Option String`. -/
structure EncoderResult where
  chunkID : Nat
  outputPath : String
  success : Bool
  errMsg : Option String
deriving DecidableEq, Repr

/-- `(*EncoderResult).Validate` from `models/encoder_result.go` (lines 83-106):
checks the consistency of a result record.  `er.Error != nil` is
`er.errMsg.isSome`. -/
def EncoderResult.Validate (er : EncoderResult) : Except String Unit :=
  if er.success && er.errMsg.isSome then
    .error "inconsistent state: Success is true but Error is not nil"
  else if !er.success && !er.errMsg.isSome then
    .error "failed result must have an error"
  else if er.success && (trimSpace er.outputPath == "") then
    .error "output_path cannot be empty for successful result"
  else if !er.success && (trimSpace er.outputPath != "") then
    .error "failed result should not have output_path"
  else
    .ok ()

/-- `models.Chunk`: a time segment of the source media.  Go `float64`
times are modelled as `ℚ`. -/
structure Chunk where
  chunkID : Nat
  startTime : ℚ
  endTime : ℚ
  sourcePath : String
deriving DecidableEq, Repr

/-- `(*Chunk).Validate` from `models/chunk.go` (lines 61-77). -/
def Chunk.Validate (c : Chunk) : Except String Unit :=
  if trimSpace c.sourcePath == "" then
    .error "source_path cannot be empty"
  else if c.endTime == 0 then
    .error "end_time must be greater than 0"
  else if c.startTime >= c.endTime then
    .error "start_time must be less than end_time"
  else
    .ok ()

end Models

namespace Timeutil

/-- Rendering of Go's `%02d` format directive for the natural numbers that
occur here: left-pad with `0` to at least two digits. -/
def pad2 (n : Nat) : String :=
  if n < 10 then "0" ++ toString n else toString n

/-- `timeutil.FormatSeconds` from `internal/timeutil/timeutil.go` (lines 18-23):

    hours := int(seconds) / 3600
    minutes := (int(seconds) % 3600) / 60
    secs := seconds - float64(hours*3600) - float64(minutes*60)
    return fmt.Sprintf("%02d:%02d:%05.2f", hours, minutes, secs)

`int(seconds)` truncates towards zero, which on the non-negative inputs in
scope equals the floor; `%05.2f` renders `secs` (here always in `[0,60)`,
hence two integer digits) rounded to the nearest hundredth.  Rounding of the
hundredths uses Mathlib's `round` (round-half-up), the rounding policy the
repository documents; an exact decimal tie is never produced by the inputs
exercised below. -/
def FormatSeconds (seconds : ℚ) : String :=
  let whole : Nat := (⌊seconds⌋).toNat
  let hours : Nat := whole / 3600
  let minutes : Nat := (whole % 3600) / 60
  let secs : ℚ := seconds - (hours * 3600 : ℚ) - (minutes * 60 : ℚ)
  let c : Nat := (round (secs * 100)).toNat
  pad2 hours ++ ":" ++ pad2 minutes ++ ":" ++ pad2 (c / 100) ++ "." ++ pad2 (c % 100)

/-- The hundredths-of-a-second payload that `FormatSeconds` renders after the
last `:` — the value printed by its `%05.2f` directive, times 100. -/
def secondsFieldHundredths (seconds : ℚ) : Nat :=
  let whole : Nat := (⌊seconds⌋).toNat
  let hours : Nat := whole / 3600
  let minutes : Nat := (whole % 3600) / 60
  let secs : ℚ := seconds - (hours * 3600 : ℚ) - (minutes * 60 : ℚ)
  (round (secs * 100)).toNat

end Timeutil

namespace Concatenator

/-- The predicate `validateResults` uses to classify a result as successful
(`concatenator.go` lines 385-396): `result.Success && result.OutputPath != ""`
and the output file exists on disk.  Disk state enters the model through the
oracle `fileExists`. -/
def isSuccessful (fileExists : String → Bool) (r : Models.EncoderResult) : Bool :=
  r.success && r.outputPath != "" && fileExists r.outputPath

/-- The ascending-`ChunkID` sort performed by `validateResults` via
`sort.Slice` (lines 398-401), modelled by insertion sort: any sorting
algorithm yields the same sorted-by-id sequence up to the order of equal
ids, which the gap check is insensitive to. -/
def sortByChunkID (rs : List Models.EncoderResult) : List Models.EncoderResult :=
  List.insertionSort (fun a b => a.chunkID ≤ b.chunkID) rs

/-- `(*Concatenator).validateResults` (lines 380-404): rejects an empty input,
splits results into successful (output verified on disk) and failed, and
sorts the successful ones by chunk id. -/
def validateResults (fileExists : String → Bool) (results : List Models.EncoderResult) :
    Except String (List Models.EncoderResult × List Models.EncoderResult) :=
  if results.isEmpty then
    .error "no results provided"
  else
    .ok (sortByChunkID (results.filter (isSuccessful fileExists)),
         results.filter (fun r => !isSuccessful fileExists r))

/-- The gap-collection loop of `checkForGaps` (lines 412-424): for every
adjacent pair in the sorted successful list whose ids are not consecutive,
the ids strictly between them are recorded as gaps. -/
def collectGaps : List Models.EncoderResult → List Nat
  | [] => []
  | [_] => []
  | a :: b :: rest =>
      (if b.chunkID ≠ a.chunkID + 1 then
        List.range' (a.chunkID + 1) (b.chunkID - a.chunkID - 1)
      else []) ++ collectGaps (b :: rest)

/-- `(*Concatenator).checkForGaps` (lines 407-431). -/
def checkForGaps (successful : List Models.EncoderResult) : Except String Unit :=
  if successful.isEmpty then .ok ()
  else if collectGaps successful ≠ [] then .error "missing chunks"
  else .ok ()

/-- `(*Concatenator).Concatenate` (lines 338-377), up to the point where the
ffmpeg stream-copy join is invoked: a `.ok` value is the sorted successful
result list handed to `createConcatFile`/`runConcat` — the decision to
produce the final output.  The subprocess itself is outside the repository
and is not modelled. -/
def Concatenate (strictMode : Bool) (fileExists : String → Bool)
    (results : List Models.EncoderResult) : Except String (List Models.EncoderResult) :=
  match validateResults fileExists results with
  | .error e => .error ("validation failed: " ++ e)
  | .ok (successful, failed) =>
    if 0 < failed.length ∧ strictMode then
      .error "strict mode: chunks failed encoding"
    else if successful.isEmpty then
      .error "no successful chunks to concatenate"
    else
      match checkForGaps successful with
      | .error e => if strictMode then .error ("strict mode: " ++ e) else .ok successful
      | .ok _ => .ok successful

/-- Modelled from the spec: "successful chunk ids form a contiguous `1..k`
run with no gaps".  Used only to compare the specification's wording with
the behaviour of `Concatenate`; it is not part of the source embedding. -/
def specIdsAreOneToK (rs : List Models.EncoderResult) : Prop :=
  (sortByChunkID rs).map (fun r => r.chunkID) = List.range' 1 rs.length

end Concatenator

namespace Chunker

/-- `chunker.ChapterInfo` (chunker interface file): chapter start and end
times, as decimal strings still to be parsed. -/
structure ChapterInfo where
  startTime : String
  endTime : String
deriving DecidableEq, Repr

/-- The `chunker.MediaInfo` interface: `GetDuration`, `HasChapters`,
`GetChapters`.  An arbitrary implementation is a record of the three
results. -/
structure MediaInfo where
  duration : Except String ℚ
  hasChapters : Bool
  chapters : List ChapterInfo

/-- `chunker.MinChunkDuration`. -/
def MinChunkDuration : Nat := 1

/-- `chunker.MaxChunkDuration`. -/
def MaxChunkDuration : Nat := 86400

/-- The `chunker.Chunker` record: source path, chunk duration (Go `uint32`,
validated into `[1, 86400]` by `CreateChunks`), chapter preference. -/
structure Chunker where
  sourcePath : String
  chunkDuration : Nat
  useChapters : Bool

/-- The loop body of `createChunksFromChapters` (chunker.go lines 109-132),
starting from 0-based index `i`.  `parseF` models `fmt.Sscanf(s, "%f", ...)`:
`none` is a scan error.  A parse or validation failure of any chapter entry
makes the whole list fail. -/
def chaptersToChunks (parseF : String → Option ℚ) (sourcePath : String) :
    Nat → List ChapterInfo → Except String (List Models.Chunk)
  | _, [] => .ok []
  | i, ch :: rest =>
    match parseF ch.startTime with
    | none => .error ("failed to parse start_time for chapter " ++ toString (i + 1))
    | some startTime =>
      match parseF ch.endTime with
      | none => .error ("failed to parse end_time for chapter " ++ toString (i + 1))
      | some endTime =>
        let chunk : Models.Chunk :=
          { chunkID := i + 1, startTime := startTime, endTime := endTime,
            sourcePath := sourcePath }
        match chunk.Validate with
        | .error e => .error ("invalid chunk " ++ toString (i + 1) ++ ": " ++ e)
        | .ok _ => (chaptersToChunks parseF sourcePath (i + 1) rest).map (chunk :: ·)

/-- `(*Chunker).createChunksFromChapters` (lines 101-135). -/
def createChunksFromChapters (parseF : String → Option ℚ) (c : Chunker)
    (mediaInfo : MediaInfo) : Except String (List Models.Chunk) :=
  if mediaInfo.chapters.isEmpty then .error "no chapters available"
  else chaptersToChunks parseF c.sourcePath 0 mediaInfo.chapters

/-- The chunk-emitting loop of `createFixedDurationChunks` (lines 158-180):
emits `k` further chunks starting at 0-based index `i`; each chunk is
validated and a validation failure aborts the plan. -/
def fixedChunksLoop (sourcePath : String) (w duration : ℚ) :
    Nat → Nat → Except String (List Models.Chunk)
  | _, 0 => .ok []
  | i, k + 1 =>
    let startTime : ℚ := i * w
    let endTime0 : ℚ := startTime + w
    let endTime : ℚ := if endTime0 > duration then duration else endTime0
    let chunk : Models.Chunk :=
      { chunkID := i + 1, startTime := startTime, endTime := endTime,
        sourcePath := sourcePath }
    match chunk.Validate with
    | .error e => .error ("invalid chunk " ++ toString (i + 1) ++ ": " ++ e)
    | .ok _ => (fixedChunksLoop sourcePath w duration (i + 1) k).map (chunk :: ·)

/-- `(*Chunker).createFixedDurationChunks` (lines 138-183).  `int(x)` of the
non-negative float division is the floor; the two corrections to the count
mirror the source's ceiling emulation and its (dead, for positive durations)
zero-count guard. -/
def createFixedDurationChunks (c : Chunker) (duration : ℚ) :
    Except String (List Models.Chunk) :=
  if duration ≤ 0 then .error "invalid duration"
  else
    let chunkDurationFloat : ℚ := (c.chunkDuration : ℚ)
    let count0 : Nat := (⌊duration / chunkDurationFloat⌋).toNat
    let count1 : Nat := if duration > (count0 : ℚ) * chunkDurationFloat then count0 + 1 else count0
    let chunkCount : Nat := if count1 = 0 then 1 else count1
    fixedChunksLoop c.sourcePath chunkDurationFloat duration 0 chunkCount

/-- `(*Chunker).CreateChunks` (lines 59-98).  The Go `mediaInfo == nil` guard
has no counterpart: the Lean argument is non-nullable.  Note the fall-through:
if chapter-based chunking fails (or returns no chunks), fixed-duration
chunking is used instead. -/
def CreateChunks (parseF : String → Option ℚ) (c : Chunker) (mediaInfo : MediaInfo) :
    Except String (List Models.Chunk) :=
  if c.sourcePath = "" then .error "source path cannot be empty"
  else if c.chunkDuration < MinChunkDuration then
    .error "chunk duration must be at least 1 seconds"
  else if c.chunkDuration > MaxChunkDuration then
    .error "chunk duration cannot exceed 86400 seconds"
  else
    match mediaInfo.duration with
    | .error e => .error ("failed to get duration: " ++ e)
    | .ok duration =>
      if duration ≤ 0 then .error "invalid duration"
      else if c.useChapters && mediaInfo.hasChapters then
        match createChunksFromChapters parseF c mediaInfo with
        | .ok chunks =>
            if chunks.isEmpty then createFixedDurationChunks c duration else .ok chunks
        | .error _ => createFixedDurationChunks c duration
      else createFixedDurationChunks c duration

end Chunker

namespace Orchestrator

/-- `orchestrator.TaskStatus` (dag.go lines 35-43). -/
inductive TaskStatus
  | pending
  | ready
  | running
  | completed
  | failed
deriving DecidableEq, Repr

/-- `orchestrator.Task` (dag.go lines 22-32).  The map key carries the `ID`;
`Command` contributes its output path (`GetOutputPath`) and, at run time, a
nondeterministic outcome.  `StartTime`/`EndTime` are instants of the logical
clock of the transition system; a task's command has been started exactly
when its `startTime` is set. -/
structure Task where
  deps : List String
  resource : String
  outputPath : String
  status : TaskStatus
  startTime : Option Nat
  endTime : Option Nat
  errMsg : Option String
  result : Option Models.EncoderResult
deriving DecidableEq, Repr

/-- Reading a Go map entry: the first association for the key. -/
def lookupTask (tasks : List (String × Task)) (id : String) : Option Task :=
  match tasks with
  | [] => none
  | (k, t) :: rest => if k == id then some t else lookupTask rest id

/-- Reading the (read-only) constraint table. -/
def lookupCons (constraints : List (String × Nat)) (tag : String) : Option Nat :=
  match constraints with
  | [] => none
  | (k, m) :: rest => if k == tag then some m else lookupCons rest tag

/-- Writing through a Go map entry: update the first association for the key. -/
def updateTask (tasks : List (String × Task)) (id : String) (f : Task → Task) :
    List (String × Task) :=
  match tasks with
  | [] => []
  | (k, t) :: rest =>
      if k == id then (k, f t) :: rest else (k, t) :: updateTask rest id f

/-- `(*DAGOrchestrator).dependenciesMet` (dag.go lines 205-216): every
dependency must exist and be `Completed`; a `Failed` (or any non-`Completed`)
dependency does not satisfy the precondition. -/
def dependenciesMet (tasks : List (String × Task)) (t : Task) : Bool :=
  t.deps.all fun depID =>
    match lookupTask tasks depID with
    | none => false
    | some depTask => depTask.status == .completed

/-- `(*DAGOrchestrator).tryAcquireResource` (dag.go lines 219-236).  The
slot table is a total function with default `0`, exactly the semantics of
the Go map.  Returns the decision together with the updated table. -/
def tryAcquireResource (constraints : List (String × Nat)) (active : String → Nat)
    (resourceType : String) : Bool × (String → Nat) :=
  match lookupCons constraints resourceType with
  | none => (true, active)
  | some maxSlots =>
      if active resourceType < maxSlots then
        (true, fun tag => if tag == resourceType then active resourceType + 1 else active tag)
      else (false, active)

/-- `(*DAGOrchestrator).releaseResource` (dag.go lines 239-246): decrement,
clamped at zero. -/
def releaseResource (active : String → Nat) (resourceType : String) : String → Nat :=
  if 0 < active resourceType then
    fun tag => if tag == resourceType then active resourceType - 1 else active tag
  else active

/-- `(*DAGOrchestrator).hasFailedDependency` (dag.go lines 326-339),
fuel-indexed: the Go recursion terminates on the validated (acyclic) graphs
it is actually run on, and every sound conclusion below holds for every
fuel value. -/
def hasFailedDependency (fuel : Nat) (tasks : List (String × Task)) (t : Task) : Bool :=
  match fuel with
  | 0 => false
  | fuel + 1 =>
    t.deps.any fun depID =>
      match lookupTask tasks depID with
      | none => false
      | some depTask =>
          depTask.status == .failed || hasFailedDependency fuel tasks depTask

/-- The `EncoderResult` literal written by `executeTask` (dag.go lines
265-279): the output path is the command's output path in both branches,
`Success` is the absence of an error, and the error is captured.  `ChunkID`
is never assigned (Go zero value). -/
def finishResult (t : Task) (err : Option String) : Models.EncoderResult :=
  { chunkID := 0, outputPath := t.outputPath, success := err.isNone, errMsg := err }

/-- The task mutation `executeTask` performs when the command returns
(dag.go lines 262-280): record the end time, set the final status from the
error, capture the error and write the result. -/
def finishUpdate (clock : Nat) (err : Option String) (u : Task) : Task :=
  { u with
    status := if err.isSome then TaskStatus.failed else TaskStatus.completed,
    endTime := some clock,
    errMsg := err,
    result := some (finishResult u err) }

/-- The task mutation `allTasksCompleteOrBlocked` performs on a task blocked
by a failed dependency (dag.go lines 300-306). -/
def blockUpdate (u : Task) : Task :=
  { u with
    status := TaskStatus.failed,
    errMsg := some "dependency failed",
    result := some (finishResult u (some "dependency failed")) }

/-- The orchestrator state: task table, active slot counters, the completion
channel's message log, and the logical clock used for recorded times. -/
structure OrchState where
  tasks : List (String × Task)
  active : String → Nat
  completeCh : List String
  clock : Nat

/-- One atomic mutation of the orchestrator, as performed by the Go code
under `tasksMutex`/`slotsMutex`.  `cons` is the read-only constraint table
fixed at construction.

* `promote` — `getReadyTasks` (lines 189-195) moves a `Pending` task whose
  dependencies are all `Completed` to `Ready`;
* `dispatch` — the scheduler acquires a slot for a `Ready` task (lines
  169-174) and the spawned worker marks it `Running` and records its start
  time (lines 253-256);
* `finish` — the worker records the end time, final status, error and result
  (lines 262-280), releases the slot (line 250) and announces completion on
  the channel (line 283); `err` is the outcome of the external
  `Command.Run`;
* `markBlocked` — `allTasksCompleteOrBlocked` (lines 297-312) fails a
  `Pending`/`Ready` task that has a failed (transitive) dependency, with a
  synthetic result, and announces it on the same channel.

The scheduler's passes are sequences of these steps; interleaving them
freely only enlarges the set of behaviours the safety theorems cover. -/
inductive Step (cons : List (String × Nat)) : OrchState → OrchState → Prop
  | promote (s : OrchState) (id : String) (t : Task) :
      lookupTask s.tasks id = some t →
      t.status = .pending →
      dependenciesMet s.tasks t = true →
      Step cons s
        { s with
          tasks := updateTask s.tasks id (fun u => { u with status := .ready }),
          clock := s.clock + 1 }
  | dispatch (s : OrchState) (id : String) (t : Task) :
      lookupTask s.tasks id = some t →
      t.status = .ready →
      (tryAcquireResource cons s.active t.resource).1 = true →
      Step cons s
        { s with
          tasks := updateTask s.tasks id
            (fun u => { u with status := .running, startTime := some s.clock }),
          active := (tryAcquireResource cons s.active t.resource).2,
          clock := s.clock + 1 }
  | finish (s : OrchState) (id : String) (t : Task) (err : Option String) :
      lookupTask s.tasks id = some t →
      t.status = .running →
      Step cons s
        { s with
          tasks := updateTask s.tasks id (finishUpdate s.clock err),
          active := releaseResource s.active t.resource,
          completeCh := s.completeCh ++ [id],
          clock := s.clock + 1 }
  | markBlocked (s : OrchState) (id : String) (t : Task) (fuel : Nat) :
      lookupTask s.tasks id = some t →
      (t.status = .pending ∨ t.status = .ready) →
      hasFailedDependency fuel s.tasks t = true →
      Step cons s
        { s with
          tasks := updateTask s.tasks id blockUpdate,
          completeCh := s.completeCh ++ [id],
          clock := s.clock + 1 }

/-- Task description at admission: `AddTask` (dag.go lines 84-95) records the
command (here: its output path), the dependency ids and the resource tag,
and resets the status to `Pending`. -/
structure TaskSpec where
  id : String
  deps : List String
  resource : String
  outputPath : String
deriving DecidableEq, Repr

/-- The task-table entry created for an admitted task. -/
def initTask (ts : TaskSpec) : Task :=
  { deps := ts.deps, resource := ts.resource, outputPath := ts.outputPath,
    status := .pending, startTime := none, endTime := none, errMsg := none,
    result := none }

/-- The orchestrator state at the beginning of `Execute`: all admitted tasks
`Pending`, no active slots, empty completion channel. -/
def initState (specs : List TaskSpec) : OrchState :=
  { tasks := specs.map (fun ts => (ts.id, initTask ts)),
    active := fun _ => 0,
    completeCh := [],
    clock := 0 }

/-- The states an execution can reach from the admitted task set. -/
def Reachable (cons : List (String × Nat)) (specs : List TaskSpec) (s : OrchState) : Prop :=
  Relation.ReflTransGen (Step cons) (initState specs) s

/-- Dependency edge: `b` is a declared dependency of the task registered
under `a`. -/
def DepEdge (tasks : List (String × Task)) (a b : String) : Prop :=
  ∃ t, lookupTask tasks a = some t ∧ b ∈ t.deps

/-- `b` is in the transitive dependency closure of `a`. -/
def Reaches (tasks : List (String × Task)) (a b : String) : Prop :=
  Relation.TransGen (DepEdge tasks) a b

/-- Every task is in a terminal state — the condition under which the Go
supervisor loop exits and `Execute` can return. -/
def allTerminal (s : OrchState) : Prop :=
  ∀ p ∈ s.tasks, p.2.status = TaskStatus.completed ∨ p.2.status = TaskStatus.failed

end Orchestrator

namespace Orchestrator

/-- The state mutation `allTasksCompleteOrBlocked` applies to a task that is
blocked by a failed dependency (dag.go lines 299-310): mark it `Failed` with
the `"dependency failed"` error, attach the synthetic result, and notify the
completion channel.  This is exactly the effect of a `Step.markBlocked`. -/
def markFailedDep (s : OrchState) (id : String) : OrchState :=
  { s with
    tasks := updateTask s.tasks id blockUpdate,
    completeCh := s.completeCh ++ [id],
    clock := s.clock + 1 }

/-- `(*DAGOrchestrator).allTasksCompleteOrBlocked` (dag.go lines 286-323).
`order` is the (arbitrary) iteration order of the Go map: terminal tasks are
skipped, a blocked `Pending`/`Ready` task is failed in place and the pass
continues, and the first still-viable or `Running` task aborts the pass with
`false`. -/
def allTasksCompleteOrBlocked (fuel : Nat) : OrchState → List String → OrchState × Bool
  | s, [] => (s, true)
  | s, id :: rest =>
    match lookupTask s.tasks id with
    | none => allTasksCompleteOrBlocked fuel s rest
    | some t =>
      if t.status = .completed ∨ t.status = .failed then
        allTasksCompleteOrBlocked fuel s rest
      else if t.status = .pending ∨ t.status = .ready then
        if hasFailedDependency fuel s.tasks t then
          allTasksCompleteOrBlocked fuel (markFailedDep s id) rest
        else (s, false)
      else (s, false)

/-- The dependency list the DFS of `validateDAG` follows from a node
(`task.Dependencies`; at this point every referenced id exists). -/
def depsOf (tasks : List (String × Task)) (id : String) : List String :=
  match lookupTask tasks id with
  | some t => t.deps
  | none => []

/-- Visited/on-stack marking of the DFS in `validateDAG` (dag.go lines
356-357). -/
structure DfsSt where
  visited : List String
  recStack : List String
deriving DecidableEq, Repr

/-- The recursive `hasCycle` closure of `validateDAG` (dag.go lines 359-377),
fuel-indexed so that the recursion is structural.  A `.inl v` input is a call
`hasCycle(v)`: mark `v` visited and on-stack, walk its dependency list, then
take `v` off the stack.  A `.inr deps` input is the `for` loop over the
remaining dependencies: an unvisited dependency is visited recursively, a
visited one still on the stack is a back edge (cycle).  Fuel exhaustion
conservatively reports a cycle; every `false` answer therefore arises from a
completed run, and the theorems below hold for every fuel value. -/
def dfsStep (tasks : List (String × Task)) :
    Nat → Sum String (List String) → DfsSt → Bool × DfsSt
  | 0, _, s => (true, s)
  | fuel + 1, .inl v, s =>
    match dfsStep tasks fuel (.inr (depsOf tasks v)) ⟨v :: s.visited, v :: s.recStack⟩ with
    | (true, s2) => (true, s2)
    | (false, s2) => (false, ⟨s2.visited, s2.recStack.erase v⟩)
  | _ + 1, .inr [], s => (false, s)
  | fuel + 1, .inr (d :: rest), s =>
    if d ∈ s.visited then
      if d ∈ s.recStack then (true, s) else dfsStep tasks fuel (.inr rest) s
    else
      match dfsStep tasks fuel (.inl d) s with
      | (true, s2) => (true, s2)
      | (false, s2) => dfsStep tasks fuel (.inr rest) s2

/-- The outer loop of the cycle check (dag.go lines 379-385): run `hasCycle`
from every not-yet-visited task id, in map-iteration order `order`. -/
def detectCycle (tasks : List (String × Task)) (fuel : Nat) :
    List String → DfsSt → Bool
  | [], _ => false
  | id :: rest, s =>
    if id ∈ s.visited then detectCycle tasks fuel rest s
    else
      match dfsStep tasks fuel (.inl id) s with
      | (true, _) => true
      | (false, s2) => detectCycle tasks fuel rest s2

/-- The two graph-construction faults `validateDAG` can report. -/
inductive ValidationError
  | unknownDependency
  | cycleDetected
deriving DecidableEq, Repr

/-- `(*DAGOrchestrator).validateDAG` (dag.go lines 342-388): first the
reference check (every dependency id refers to an admitted task), then the
DFS cycle detection over the ids in map-iteration order `order`. -/
def validateDAG (fuel : Nat) (tasks : List (String × Task)) (order : List String) :
    Except ValidationError Unit :=
  if tasks.all (fun p => p.2.deps.all (fun d => (lookupTask tasks d).isSome)) then
    if detectCycle tasks fuel order ⟨[], []⟩ then .error .cycleDetected
    else .ok ()
  else .error .unknownDependency

/-- The validation prefix of `(*DAGOrchestrator).Execute` (dag.go lines
102-110): `Execute` runs `validateDAG` first and, on error, returns
`(nil, err)` — no results, no scheduler, no dispatch. -/
def ExecuteValidation (fuel : Nat) (specs : List TaskSpec) (order : List String) :
    Except ValidationError Unit :=
  validateDAG fuel (initState specs).tasks order

/-- A state of an actual `Execute` run: `Execute` unfolds the `Step`
relation from `initState` only after `validateDAG` has succeeded. -/
def ExecReachable (cons : List (String × Nat)) (fuel : Nat) (specs : List TaskSpec)
    (order : List String) (s : OrchState) : Prop :=
  ExecuteValidation fuel specs order = .ok () ∧ Reachable cons specs s

/-- The completion-handler goroutine of `Execute` (dag.go lines 117-141): it
blocks on the completion channel, counts received messages, and signals
`doneCh` — the event `Execute` waits for before returning — exactly upon
receiving a `k`-th message (`k = 1, 2, ...`) with `k = totalTasks`.  With no
message, nothing is ever signalled. -/
def handlerSignalsDone (totalTasks k : Nat) : Bool := k == totalTasks

end Orchestrator

namespace Timeutil

/-- Evaluation helper: `FormatSeconds` rendered from a precomputed floor `w`
and hundredths payload `c`. -/
theorem formatSeconds_eval (q : ℚ) (w c : Nat)
    (hw : ⌊q⌋ = (w : Int))
    (hc : round ((q - (↑(w / 3600) * 3600 : ℚ) - (↑(w % 3600 / 60) * 60 : ℚ)) * 100) = (c : Int)) :
    FormatSeconds q =
      pad2 (w / 3600) ++ ":" ++ pad2 (w % 3600 / 60) ++ ":" ++
        pad2 (c / 100) ++ "." ++ pad2 (c % 100) := by
  unfold FormatSeconds
  rw [hw]
  simp only [Int.toNat_natCast]
  rw [hc]
  simp only [Int.toNat_natCast]

/-- Evaluation helper for the seconds-field payload. -/
theorem secondsField_eval (q : ℚ) (w c : Nat)
    (hw : ⌊q⌋ = (w : Int))
    (hc : round ((q - (↑(w / 3600) * 3600 : ℚ) - (↑(w % 3600 / 60) * 60 : ℚ)) * 100) = (c : Int)) :
    secondsFieldHundredths q = c := by
  unfold secondsFieldHundredths
  rw [hw]
  simp only [Int.toNat_natCast]
  rw [hc]
  simp only [Int.toNat_natCast]

end Timeutil

/-- C10, counterexample.  The claim asserts that for every non-negative input
the minutes and seconds fields stay within their `HH:MM:SS` ranges.  At
`seconds = 59.999` the code renders `"00:00:60.00"`: the whole-second part is
`59`, so hours and minutes are `0` and the residual seconds `59.999` round
half-up to `60.00` — a seconds field of `60`, outside `[0, 60)`.  (The same
string is produced by Go's `%05.2f`, since `59.999` stored as a float64 is
`59.998999…`, which also rounds to `60.00`.) -/
theorem c10_counterexample :
    Timeutil.FormatSeconds (59999/1000) = "00:00:60.00" ∧
      Timeutil.secondsFieldHundredths (59999/1000) = 6000 := by
  have hw : ⌊(59999/1000 : ℚ)⌋ = ((59 : Nat) : Int) := by
    rw [Int.floor_eq_iff] <;> norm_num
  have hc : round (((59999/1000 : ℚ) - (↑((59 : Nat) / 3600) * 3600 : ℚ) -
      (↑((59 : Nat) % 3600 / 60) * 60 : ℚ)) * 100) = ((6000 : Nat) : Int) := by
    rw [round_eq]
    norm_num
  exact ⟨by rw [Timeutil.formatSeconds_eval (59999/1000) 59 6000 hw hc]; rfl,
         Timeutil.secondsField_eval (59999/1000) 59 6000 hw hc⟩

/-- C10, amended.  For every non-negative seconds value the formatter renders
`HH:MM:SS.ss`: hours, a colon, minutes, a colon, and the residual seconds
with exactly two fractional digits, rounded half-up to hundredths.  The
minutes field is always in range (`M < 60`); hours are unbounded and may
exceed 24 (witness: `90000 s` renders as `"25:00:00.00"`).  The seconds
field is the rounded residual, which is at most `60.00` (`C ≤ 6000`
hundredths) — it can reach `60.00` exactly (see the counterexample), because
the code does not re-normalise fields after rounding; within one hundredth
below that bound the field stays in `[0, 60)` as the claim states. -/
theorem c10_format_seconds_fields :
    (∀ q : ℚ, 0 ≤ q → ∃ H M C, M < 60 ∧ C ≤ 6000 ∧
      Timeutil.FormatSeconds q =
        Timeutil.pad2 H ++ ":" ++ Timeutil.pad2 M ++ ":" ++
          Timeutil.pad2 (C / 100) ++ "." ++ Timeutil.pad2 (C % 100)) ∧
      Timeutil.FormatSeconds 90000 = "25:00:00.00" := by
  constructor
  · intro q hq
    refine ⟨(⌊q⌋).toNat / 3600, (⌊q⌋).toNat % 3600 / 60,
      (round ((q - ((((⌊q⌋).toNat / 3600 : Nat) : ℚ) * 3600) -
        ((((⌊q⌋).toNat % 3600 / 60 : Nat) : ℚ) * 60)) * 100)).toNat,
      ?_, ?_, rfl⟩
    · omega
    · set w : Nat := (⌊q⌋).toNat with hw
      have hfl0 : (0 : Int) ≤ ⌊q⌋ := Int.floor_nonneg.mpr hq
      have hwq : (w : ℚ) ≤ q := by
        have h1 : ((w : Int) : ℚ) = ((⌊q⌋ : Int) : ℚ) := by
          rw [hw, Int.toNat_of_nonneg hfl0]
        push_cast at h1
        rw [h1]
        exact Int.floor_le q
      have hqw : q < (w : ℚ) + 1 := by
        have h1 : ((w : Int) : ℚ) = ((⌊q⌋ : Int) : ℚ) := by
          rw [hw, Int.toNat_of_nonneg hfl0]
        push_cast at h1
        rw [h1]
        exact Int.lt_floor_add_one q
      have hsum : (w / 3600) * 3600 + (w % 3600 / 60) * 60 + w % 60 = w := by omega
      have hcast : ((w / 3600 : Nat) : ℚ) * 3600 + ((w % 3600 / 60 : Nat) : ℚ) * 60 +
          ((w % 60 : Nat) : ℚ) = (w : ℚ) := by
        exact_mod_cast hsum
      have h60 : ((w % 60 : Nat) : ℚ) ≤ 59 := by
        have h : w % 60 ≤ 59 := by omega
        exact_mod_cast h
      have hub : round ((q - ((w / 3600 : Nat) : ℚ) * 3600 -
          ((w % 3600 / 60 : Nat) : ℚ) * 60) * 100) ≤ 6000 := by
        rw [round_eq]
        have hlt : (q - ((w / 3600 : Nat) : ℚ) * 3600 - ((w % 3600 / 60 : Nat) : ℚ) * 60) * 100
            + 1/2 < ((6001 : Int) : ℚ) := by
          push_cast
          linarith
        have h2 := Int.floor_lt.mpr hlt
        omega
      exact Int.toNat_le.mpr hub
  · have hw : ⌊(90000 : ℚ)⌋ = ((90000 : Nat) : Int) := by
      rw [Int.floor_eq_iff] <;> norm_num
    have hc : round (((90000 : ℚ) - (↑((90000 : Nat) / 3600) * 3600 : ℚ) -
        (↑((90000 : Nat) % 3600 / 60) * 60 : ℚ)) * 100) = ((0 : Nat) : Int) := by
      rw [round_eq]
      norm_num
    rw [Timeutil.formatSeconds_eval 90000 90000 0 hw hc]
    rfl

/-- C10, witness: the amended theorem applied at `3661.5 s`. -/
theorem c10_witness :
    (0 : ℚ) ≤ 36615/10 ∧ ∃ H M C, M < 60 ∧ C ≤ 6000 ∧
      Timeutil.FormatSeconds (36615/10) =
        Timeutil.pad2 H ++ ":" ++ Timeutil.pad2 M ++ ":" ++
          Timeutil.pad2 (C / 100) ++ "." ++ Timeutil.pad2 (C % 100) :=
  ⟨by norm_num, c10_format_seconds_fields.1 (36615/10) (by norm_num)⟩

namespace Chunker

/-- The chunk sequence the fixed-duration loop is expected to emit from
0-based index `i`, `k` chunks: chunk `i` spans `[i·w, min((i+1)·w, d))`. -/
def expectedChunks (sp : String) (w d : ℚ) : Nat → Nat → List Models.Chunk
  | _, 0 => []
  | i, k + 1 =>
    { chunkID := i + 1, startTime := (i : ℚ) * w,
      endTime := if (i : ℚ) * w + w > d then d else (i : ℚ) * w + w,
      sourcePath := sp } :: expectedChunks sp w d (i + 1) k

theorem expectedChunks_length (sp : String) (w d : ℚ) :
    ∀ k i, (expectedChunks sp w d i k).length = k := by
  intro k
  induction k with
  | zero => intro i; rfl
  | succ n ih => intro i; simp [expectedChunks, ih]

theorem expectedChunks_get (sp : String) (w d : ℚ) :
    ∀ k i j (hj : j < (expectedChunks sp w d i k).length),
      (expectedChunks sp w d i k).get ⟨j, hj⟩ =
        { chunkID := i + j + 1, startTime := ((i + j : Nat) : ℚ) * w,
          endTime := if ((i + j : Nat) : ℚ) * w + w > d then d
            else ((i + j : Nat) : ℚ) * w + w,
          sourcePath := sp } := by
  intro k
  induction k with
  | zero => intro i j hj; simp [expectedChunks] at hj
  | succ n ih =>
    intro i j hj
    match j with
    | 0 => simp [expectedChunks]
    | j + 1 =>
      have hj2 : j < (expectedChunks sp w d (i + 1) n).length := by
        simp [expectedChunks_length] at hj ⊢
        omega
      have h := ih (i + 1) j hj2
      simp only [expectedChunks, List.get_cons_succ]
      rw [h]
      have he : i + 1 + j = i + (j + 1) := by omega
      rw [he]

theorem fixedChunksLoop_ok (sp : String) (w d : ℚ) (hsp : ¬ Models.trimSpace sp = "") (hw : 0 < w) :
    ∀ k i, (∀ j, j < k → ((i + j : Nat) : ℚ) * w < d) →
      fixedChunksLoop sp w d i k = .ok (expectedChunks sp w d i k) := by
  intro k
  induction k with
  | zero => intro i _; rfl
  | succ n ih =>
    intro i hbound
    have h0 : ((i : Nat) : ℚ) * w < d := by
      have h := hbound 0 (Nat.succ_pos n)
      simpa using h
    have hend_pos : (0 : ℚ) < (if ((i : Nat) : ℚ) * w + w > d then d
        else ((i : Nat) : ℚ) * w + w) := by
      have hstart_nonneg : (0 : ℚ) ≤ ((i : Nat) : ℚ) * w := by positivity
      split
      · linarith
      · linarith
    have hlt : ((i : Nat) : ℚ) * w < (if ((i : Nat) : ℚ) * w + w > d then d
        else ((i : Nat) : ℚ) * w + w) := by
      split
      · exact h0
      · linarith
    have hval : (Models.Chunk.Validate
        { chunkID := i + 1, startTime := ((i : Nat) : ℚ) * w,
          endTime := if ((i : Nat) : ℚ) * w + w > d then d else ((i : Nat) : ℚ) * w + w,
          sourcePath := sp }) = .ok () := by
      unfold Models.Chunk.Validate
      rw [if_neg (show ¬ (Models.trimSpace sp == "") = true by simpa [beq_iff_eq] using hsp)]
      rw [if_neg (show ¬ (((if ((i : Nat) : ℚ) * w + w > d then d
            else ((i : Nat) : ℚ) * w + w) : ℚ) == (0:ℚ)) = true by
          simpa [beq_iff_eq] using (ne_of_gt hend_pos))]
      rw [if_neg (not_le.mpr hlt)]
    have hrec := ih (i + 1) (by
      intro j hj
      have h := hbound (j + 1) (by omega)
      have he : i + (j + 1) = i + 1 + j := by omega
      rw [he] at h
      exact h)
    simp only [fixedChunksLoop, hval]
    rw [hrec]
    rfl

end Chunker

/-- C9: for a fixed-width plan over a source with duration `D > 0` and chunk
width `W ≥ 1` (the planner admits only widths in `[1, 86400]`) and a
non-blank source path, `createFixedDurationChunks` succeeds and produces
exactly `⌈D/W⌉` chunks; the chunk at 0-based position `i` has id `i + 1`
(ids `1..N` in emission order), starts at `i·W`, and ends at `(i+1)·W`,
except the final chunk, whose end is the exact (fractional) duration `D`. -/
theorem c9_fixed_duration_plan (c : Chunker.Chunker) (duration : ℚ) (hd : 0 < duration)
    (hw : 1 ≤ c.chunkDuration) (hsp : ¬ Models.trimSpace c.sourcePath = "") :
    ∃ chunks, Chunker.createFixedDurationChunks c duration = .ok chunks ∧
      chunks.length = (⌈duration / (c.chunkDuration : ℚ)⌉).toNat ∧
      ∀ i (hi : i < chunks.length),
        (chunks.get ⟨i, hi⟩).chunkID = i + 1 ∧
        (chunks.get ⟨i, hi⟩).sourcePath = c.sourcePath ∧
        (chunks.get ⟨i, hi⟩).startTime = (i : ℚ) * (c.chunkDuration : ℚ) ∧
        (i + 1 < chunks.length →
          (chunks.get ⟨i, hi⟩).endTime = ((i + 1 : Nat) : ℚ) * (c.chunkDuration : ℚ)) ∧
        (i + 1 = chunks.length → (chunks.get ⟨i, hi⟩).endTime = duration) := by
  have hw0 : (0 : ℚ) < (c.chunkDuration : ℚ) := by
    have : (0 : Nat) < c.chunkDuration := hw
    exact_mod_cast this
  set w : ℚ := (c.chunkDuration : ℚ) with hwdef
  have hx : 0 < duration / w := div_pos hd hw0
  have hceil_pos : (0 : ℤ) < ⌈duration / w⌉ := Int.ceil_pos.mpr hx
  set N : Nat := (⌈duration / w⌉).toNat with hN
  have hNcast : ((N : ℤ)) = ⌈duration / w⌉ := Int.toNat_of_nonneg (le_of_lt hceil_pos)
  have hNQ : ((N : ℚ)) = ((⌈duration / w⌉ : ℤ) : ℚ) := by exact_mod_cast hNcast
  have hNpos : 1 ≤ N := by omega
  have hxN : duration / w ≤ (N : ℚ) := by
    rw [hNQ]
    exact Int.le_ceil _
  have hNW : duration ≤ (N : ℚ) * w := by
    rw [div_le_iff hw0] at hxN
    exact hxN
  have hsub : ((N : ℚ)) - 1 < duration / w := by
    rw [hNQ]
    have := Int.ceil_lt_add_one (duration / w)
    push_cast at this ⊢
    linarith
  have hlt : ∀ j, j < N → ((j : Nat) : ℚ) * w < duration := by
    intro j hj
    have hjq : ((j : Nat) : ℚ) ≤ ((N : ℚ)) - 1 := by
      have : (j : Nat) ≤ N - 1 := by omega
      have h2 : ((j : Nat) : ℚ) ≤ ((N - 1 : Nat) : ℚ) := by exact_mod_cast this
      have h3 : ((N - 1 : Nat) : ℚ) = (N : ℚ) - 1 := by
        have : (1 : Nat) ≤ N := hNpos
        push_cast [Nat.cast_sub this]
        ring
      rw [h3] at h2
      exact h2
    have : ((j : Nat) : ℚ) < duration / w := lt_of_le_of_lt hjq hsub
    rw [lt_div_iff hw0] at this
    exact this
  -- the chunk count computed by the source equals N
  have hfl_nonneg : (0 : ℤ) ≤ ⌊duration / w⌋ := Int.floor_nonneg.mpr (le_of_lt hx)
  have hflQ : (((⌊duration / w⌋).toNat : ℚ)) = ((⌊duration / w⌋ : ℤ) : ℚ) := by
    have h := Int.toNat_of_nonneg hfl_nonneg
    exact_mod_cast h
  have hcount : (if (if duration > (((⌊duration / w⌋).toNat : Nat) : ℚ) * w
        then (⌊duration / w⌋).toNat + 1 else (⌊duration / w⌋).toNat) = 0 then 1
      else (if duration > (((⌊duration / w⌋).toNat : Nat) : ℚ) * w
        then (⌊duration / w⌋).toNat + 1 else (⌊duration / w⌋).toNat)) = N := by
    by_cases hgt : duration > (((⌊duration / w⌋).toNat : Nat) : ℚ) * w
    · rw [if_pos hgt]
      have hne : (⌊duration / w⌋).toNat + 1 ≠ 0 := by omega
      rw [if_neg hne]
      -- N = ⌈x⌉ = ⌊x⌋ + 1 here
      have hlt2 : ((⌊duration / w⌋ : ℤ) : ℚ) < duration / w := by
        rw [hflQ] at hgt
        exact (lt_div_iff hw0).mpr hgt
      have hceil_eq : ⌈duration / w⌉ = ⌊duration / w⌋ + 1 := by
        rw [Int.ceil_eq_iff]
        constructor
        · push_cast
          linarith
        · push_cast
          have := Int.lt_floor_add_one (duration / w)
          push_cast at this
          linarith
      omega
    · rw [if_neg hgt]
      have hle : duration ≤ (((⌊duration / w⌋).toNat : Nat) : ℚ) * w := not_lt.mp hgt
      have hge : (((⌊duration / w⌋).toNat : Nat) : ℚ) * w ≤ duration := by
        rw [hflQ]
        have hfl_le : ((⌊duration / w⌋ : ℤ) : ℚ) ≤ duration / w := Int.floor_le _
        rw [← le_div_iff hw0]
        exact hfl_le
      have heq : (((⌊duration / w⌋).toNat : Nat) : ℚ) * w = duration := le_antisymm hge hle
      have hxeq : duration / w = (((⌊duration / w⌋).toNat : Nat) : ℚ) := by
        rw [← heq]
        field_simp
      have hceil_eq : ⌈duration / w⌉ = ⌊duration / w⌋ := by
        rw [hxeq, hflQ]
        simp
      have hfl_pos : (⌊duration / w⌋).toNat ≠ 0 := by
        by_contra h0
        have : (⌊duration / w⌋).toNat = 0 := by omega
        rw [this] at heq
        push_cast at heq
        linarith
      rw [if_neg hfl_pos]
      omega
  refine ⟨Chunker.expectedChunks c.sourcePath w duration 0 N, ?_, ?_, ?_⟩
  · have hred : Chunker.createFixedDurationChunks c duration =
        Chunker.fixedChunksLoop c.sourcePath w duration 0
          (if (if duration > (((⌊duration / w⌋).toNat : Nat) : ℚ) * w
              then (⌊duration / w⌋).toNat + 1 else (⌊duration / w⌋).toNat) = 0 then 1
            else (if duration > (((⌊duration / w⌋).toNat : Nat) : ℚ) * w
              then (⌊duration / w⌋).toNat + 1 else (⌊duration / w⌋).toNat)) := by
      unfold Chunker.createFixedDurationChunks
      rw [if_neg (not_le.mpr hd)]
    rw [hred, hcount]
    exact Chunker.fixedChunksLoop_ok c.sourcePath w duration hsp hw0 N 0 (by
      intro j hj
      have h := hlt j hj
      simpa using h)
  · rw [Chunker.expectedChunks_length]
  · intro i hi
    have hi' : i < N := by
      rw [Chunker.expectedChunks_length] at hi
      exact hi
    have hget := Chunker.expectedChunks_get c.sourcePath w duration N 0 i hi
    rw [hget]
    have hz : 0 + i = i := by omega
    rw [hz]
    refine ⟨rfl, rfl, rfl, ?_, ?_⟩
    · intro hlt2
      rw [Chunker.expectedChunks_length] at hlt2
      have hle2 : ((i : ℚ)) * w + w ≤ duration := by
        have h1 : ((i + 1 : Nat) : ℚ) * w < duration := hlt (i + 1) hlt2
        push_cast at h1
        linarith
      simp only []
      rw [if_neg (not_lt.mpr hle2)]
      push_cast
      ring
    · intro hfin
      rw [Chunker.expectedChunks_length] at hfin
      by_cases hgt : (i : ℚ) * w + w > duration
      · simp only []
        rw [if_pos hgt]
      · have h1 : ((i : ℚ)) * w + w = (N : ℚ) * w := by
          have : ((i : ℚ)) + 1 = (N : ℚ) := by exact_mod_cast hfin
          nlinarith [this]
        have h2 : ((i : ℚ)) * w + w = duration := by
          have := not_lt.mp hgt
          rw [h1] at this ⊢
          linarith [hNW]
        simp only []
        rw [if_neg hgt]
        exact h2

/-- C9, witness: a 25-second source with 10-second chunks yields
`⌈25/10⌉ = 3` chunks. -/
theorem c9_witness :
    (0 : ℚ) < 25 ∧ 1 ≤ (10 : Nat) ∧ ¬ Models.trimSpace "src.mp4" = "" ∧
      ∃ chunks, Chunker.createFixedDurationChunks
          { sourcePath := "src.mp4", chunkDuration := 10, useChapters := true } 25 =
            .ok chunks ∧
        chunks.length = (⌈(25 : ℚ) / ((10 : Nat) : ℚ)⌉).toNat ∧
        ∀ i (hi : i < chunks.length),
          (chunks.get ⟨i, hi⟩).chunkID = i + 1 ∧
          (chunks.get ⟨i, hi⟩).sourcePath = "src.mp4" ∧
          (chunks.get ⟨i, hi⟩).startTime = (i : ℚ) * ((10 : Nat) : ℚ) ∧
          (i + 1 < chunks.length →
            (chunks.get ⟨i, hi⟩).endTime = ((i + 1 : Nat) : ℚ) * ((10 : Nat) : ℚ)) ∧
          (i + 1 = chunks.length → (chunks.get ⟨i, hi⟩).endTime = 25) :=
  ⟨by norm_num, by norm_num, by decide,
    c9_fixed_duration_plan
      { sourcePath := "src.mp4", chunkDuration := 10, useChapters := true } 25
      (by norm_num) (by norm_num) (by decide)⟩

namespace Chunker

/-- Every chunk list `chaptersToChunks` returns consists of individually
validated chunks: the loop validates each chunk before appending it. -/
theorem chaptersToChunks_validated (parseF : String → Option ℚ) (sp : String) :
    ∀ chaps i chunks, chaptersToChunks parseF sp i chaps = .ok chunks →
      ∀ ch ∈ chunks, ch.Validate = .ok () := by
  intro chaps
  induction chaps with
  | nil =>
    intro i chunks h ch hch
    simp only [chaptersToChunks] at h
    cases h
    simp at hch
  | cons c rest ih =>
    intro i chunks h ch hch
    simp only [chaptersToChunks] at h
    cases hps : parseF c.startTime with
    | none =>
      simp only [hps] at h
      exact Except.noConfusion h
    | some st =>
      simp only [hps] at h
      cases hpe : parseF c.endTime with
      | none =>
        simp only [hpe] at h
        exact Except.noConfusion h
      | some et =>
        simp only [hpe] at h
        cases hval : Models.Chunk.Validate
            { chunkID := i + 1, startTime := st, endTime := et, sourcePath := sp } with
        | error e =>
          simp only [hval] at h
          exact Except.noConfusion h
        | ok u =>
          simp only [hval] at h
          cases hrec : chaptersToChunks parseF sp (i + 1) rest with
          | error e =>
            simp only [hrec, Except.map] at h
            exact Except.noConfusion h
          | ok tail =>
            simp only [hrec, Except.map, Except.ok.injEq] at h
            rw [← h] at hch
            rcases List.mem_cons.mp hch with hhead | htail
            · rw [hhead]
              cases u
              exact hval
            · exact ih (i + 1) tail hrec ch htail

/-- If chapter-based chunking fails, `CreateChunks` falls back to
fixed-duration chunking instead of propagating the error (chunker.go lines
88-97). -/
theorem createChunks_fallback (parseF : String → Option ℚ) (c : Chunker)
    (mi : MediaInfo) (duration : ℚ) (e : String)
    (hdur : mi.duration = .ok duration)
    (hsp : ¬ c.sourcePath = "")
    (hmin : ¬ c.chunkDuration < MinChunkDuration)
    (hmax : ¬ c.chunkDuration > MaxChunkDuration)
    (hdpos : ¬ duration ≤ 0)
    (huse : c.useChapters = true)
    (hchap : mi.hasChapters = true)
    (herr : createChunksFromChapters parseF c mi = .error e) :
    CreateChunks parseF c mi = createFixedDurationChunks c duration := by
  unfold CreateChunks
  rw [if_neg hsp, if_neg hmin, if_neg hmax]
  simp only [hdur]
  rw [if_neg hdpos]
  rw [if_pos (show (c.useChapters && mi.hasChapters) = true by simp [huse, hchap])]
  simp only [herr]

end Chunker

/-- C8, amended.  In a chapter-derived plan every returned chunk is
individually validated before being emitted, and a parse failure or
validation failure of any chapter entry is fatal to the chapter-derived
plan: `createChunksFromChapters` returns an error and no chunk list.
However, `CreateChunks` — the plan operation — does not then return an
error: it falls back to fixed-duration chunking (chunker.go lines 88-94 and
the comment "Fall through to fixed-duration chunks if chapter-based chunking
fails"). -/
theorem c8_chapter_plan_validation :
    (∀ (parseF : String → Option ℚ) (c : Chunker.Chunker) (mi : Chunker.MediaInfo) chunks,
        Chunker.createChunksFromChapters parseF c mi = .ok chunks →
        ∀ ch ∈ chunks, ch.Validate = .ok ()) ∧
    (∀ (parseF : String → Option ℚ) (c : Chunker.Chunker) (mi : Chunker.MediaInfo)
        (duration : ℚ) (e : String),
        mi.duration = .ok duration →
        ¬ c.sourcePath = "" →
        ¬ c.chunkDuration < Chunker.MinChunkDuration →
        ¬ c.chunkDuration > Chunker.MaxChunkDuration →
        ¬ duration ≤ 0 →
        c.useChapters = true →
        mi.hasChapters = true →
        Chunker.createChunksFromChapters parseF c mi = .error e →
        Chunker.CreateChunks parseF c mi = Chunker.createFixedDurationChunks c duration) := by
  constructor
  · intro parseF c mi chunks h ch hch
    unfold Chunker.createChunksFromChapters at h
    by_cases hemp : mi.chapters.isEmpty
    · rw [if_pos hemp] at h; cases h
    · rw [if_neg hemp] at h
      exact Chunker.chaptersToChunks_validated parseF c.sourcePath mi.chapters 0 chunks h ch hch
  · intro parseF c mi duration e hdur hsp hmin hmax hdpos huse hchap herr
    exact Chunker.createChunks_fallback parseF c mi duration e hdur hsp hmin hmax hdpos
      huse hchap herr

/-- C8, counterexample.  The claim says a parse failure of any chapter entry
is fatal to the plan: the plan operation returns an error and emits no
chunks.  With a single chapter whose start time `"abc"` does not parse,
`createChunksFromChapters` does fail — but `CreateChunks` (the plan
operation) returns a fixed-duration chunk list, not an error. -/
theorem c8_counterexample :
    Chunker.createChunksFromChapters
        (fun s => if s = "5" then some 5 else none)
        { sourcePath := "s", chunkDuration := 600, useChapters := true }
        { duration := .ok 10, hasChapters := true,
          chapters := [{ startTime := "abc", endTime := "5" }] } =
      .error "failed to parse start_time for chapter 1" ∧
    Chunker.CreateChunks
        (fun s => if s = "5" then some 5 else none)
        { sourcePath := "s", chunkDuration := 600, useChapters := true }
        { duration := .ok 10, hasChapters := true,
          chapters := [{ startTime := "abc", endTime := "5" }] } =
      .ok [{ chunkID := 1, startTime := 0, endTime := 10, sourcePath := "s" }] := by
  constructor
  · rfl
  · have herr : Chunker.createChunksFromChapters
        (fun s => if s = "5" then some 5 else none)
        { sourcePath := "s", chunkDuration := 600, useChapters := true }
        { duration := .ok 10, hasChapters := true,
          chapters := [{ startTime := "abc", endTime := "5" }] } =
        .error "failed to parse start_time for chapter 1" := rfl
    have hfall := Chunker.createChunks_fallback
      (fun s => if s = "5" then some 5 else none)
      { sourcePath := "s", chunkDuration := 600, useChapters := true }
      { duration := .ok 10, hasChapters := true,
        chapters := [{ startTime := "abc", endTime := "5" }] }
      10 "failed to parse start_time for chapter 1"
      rfl (by decide) (by decide) (by decide) (by norm_num) rfl rfl herr
    rw [hfall]
    have hred : Chunker.createFixedDurationChunks
        { sourcePath := "s", chunkDuration := 600, useChapters := true } 10 =
        Chunker.fixedChunksLoop "s" ((600 : Nat) : ℚ) 10 0 1 := by
      unfold Chunker.createFixedDurationChunks
      rw [if_neg (by norm_num)]
      have hfl : (⌊(10 : ℚ) / ((600 : Nat) : ℚ)⌋).toNat = 0 := by norm_num
      simp only [hfl]
      norm_num
    rw [hred]
    rw [Chunker.fixedChunksLoop_ok "s" ((600 : Nat) : ℚ) 10 (by decide) (by norm_num) 1 0
      (by intro j hj; interval_cases j; norm_num)]
    unfold Chunker.expectedChunks Chunker.expectedChunks
    norm_num

/-- C8, witness: a well-formed chapter list yields a validated chunk list,
and the amended theorem's fallback clause applied at the counterexample
input. -/
theorem c8_witness :
    (Chunker.createChunksFromChapters
        (fun s => if s = "0" then some 0 else if s = "5" then some 5 else none)
        { sourcePath := "s", chunkDuration := 600, useChapters := true }
        { duration := .ok 10, hasChapters := true,
          chapters := [{ startTime := "0", endTime := "5" }] } =
      .ok [{ chunkID := 1, startTime := 0, endTime := 5, sourcePath := "s" }]) ∧
    (∀ ch ∈ [({ chunkID := 1, startTime := 0, endTime := 5, sourcePath := "s" } : Models.Chunk)],
      ch.Validate = .ok ()) ∧
    (Chunker.CreateChunks
        (fun s => if s = "5" then some 5 else none)
        { sourcePath := "s", chunkDuration := 600, useChapters := true }
        { duration := .ok 10, hasChapters := true,
          chapters := [{ startTime := "abc", endTime := "5" }] } =
      Chunker.createFixedDurationChunks
        { sourcePath := "s", chunkDuration := 600, useChapters := true } 10) := by
  have h1 : Chunker.createChunksFromChapters
      (fun s => if s = "0" then some 0 else if s = "5" then some 5 else none)
      { sourcePath := "s", chunkDuration := 600, useChapters := true }
      { duration := .ok 10, hasChapters := true,
        chapters := [{ startTime := "0", endTime := "5" }] } =
      .ok [{ chunkID := 1, startTime := 0, endTime := 5, sourcePath := "s" }] := rfl
  refine ⟨h1, ?_, ?_⟩
  · exact c8_chapter_plan_validation.1
      (fun s => if s = "0" then some 0 else if s = "5" then some 5 else none)
      { sourcePath := "s", chunkDuration := 600, useChapters := true }
      { duration := .ok 10, hasChapters := true,
        chapters := [{ startTime := "0", endTime := "5" }] }
      [{ chunkID := 1, startTime := 0, endTime := 5, sourcePath := "s" }] h1
  · exact c8_chapter_plan_validation.2
      (fun s => if s = "5" then some 5 else none)
      { sourcePath := "s", chunkDuration := 600, useChapters := true }
      { duration := .ok 10, hasChapters := true,
        chapters := [{ startTime := "abc", endTime := "5" }] }
      10 "failed to parse start_time for chapter 1"
      rfl (by decide) (by decide) (by decide) (by norm_num) rfl rfl rfl

namespace Concatenator

/-- The id-sorting relation of `validateResults`. -/
def byID (a b : Models.EncoderResult) : Prop := a.chunkID ≤ b.chunkID

instance : DecidableRel byID := fun a b => Nat.decLe a.chunkID b.chunkID

instance : IsTotal Models.EncoderResult byID := ⟨fun a b => Nat.le_total a.chunkID b.chunkID⟩

instance : IsTrans Models.EncoderResult byID := ⟨fun _ _ _ h1 h2 => Nat.le_trans h1 h2⟩

theorem sortByChunkID_sorted (rs : List Models.EncoderResult) :
    List.Sorted byID (sortByChunkID rs) :=
  List.sorted_insertionSort byID rs

theorem sortByChunkID_perm (rs : List Models.EncoderResult) :
    List.Perm (sortByChunkID rs) rs :=
  List.perm_insertionSort byID rs

/-- The gap collector returns nothing exactly when every adjacent pair of the
(sorted) list has consecutive-or-equal ids. -/
theorem collectGaps_eq_nil_iff :
    ∀ l : List Models.EncoderResult,
      collectGaps l = [] ↔ l.Chain' (fun a b => b.chunkID ≤ a.chunkID + 1) := by
  intro l
  match l with
  | [] => simp [collectGaps]
  | [a] => simp [collectGaps]
  | a :: b :: rest =>
    rw [collectGaps]
    rw [List.append_eq_nil]
    constructor
    · rintro ⟨h1, h2⟩
      rw [List.chain'_cons]
      constructor
      · by_cases hne : b.chunkID ≠ a.chunkID + 1
        · rw [if_pos hne] at h1
          have := List.range'_eq_nil.mp h1
          omega
        · omega
      · exact (collectGaps_eq_nil_iff (b :: rest)).mp h2
    · intro h
      rw [List.chain'_cons] at h
      refine ⟨?_, (collectGaps_eq_nil_iff (b :: rest)).mpr h.2⟩
      by_cases hne : b.chunkID ≠ a.chunkID + 1
      · rw [if_pos hne]
        rw [List.range'_eq_nil]
        omega
      · rw [if_neg hne]

end Concatenator

/-- C7, counterexample.  The claim says strict-mode concatenation produces
the final output only if the successful chunk ids form a contiguous `1..k`
run.  With two successful results whose ids are `2` and `3` (files present),
strict `Concatenate` reaches the stream-copy join — the gap check only
compares adjacent sorted ids and never requires the run to start at 1 —
although `{2, 3}` is not `1..2`. -/
theorem c7_counterexample :
    Concatenator.Concatenate true (fun _ => true)
        [{ chunkID := 2, outputPath := "p2", success := true, errMsg := none },
         { chunkID := 3, outputPath := "p3", success := true, errMsg := none }] =
      .ok [{ chunkID := 2, outputPath := "p2", success := true, errMsg := none },
           { chunkID := 3, outputPath := "p3", success := true, errMsg := none }] ∧
    ¬ Concatenator.specIdsAreOneToK
        [{ chunkID := 2, outputPath := "p2", success := true, errMsg := none },
         { chunkID := 3, outputPath := "p3", success := true, errMsg := none }] := by
  constructor
  · rfl
  · intro h
    have h2 : ([2, 3] : List Nat) = [1, 2] := h
    cases h2

/-- C7, amended.  Strict-mode concatenation reaches the stream-copy join
(producing the final output, given the join subprocess succeeds) if and only
if the input result list is non-empty, every input result is successful with
a non-empty output path whose file exists, and the successful chunk ids,
sorted ascending, contain no internal gap (each adjacent pair differs by at
most one).  The run is not required to start at id 1, and duplicate ids are
not rejected — the contiguous-`1..k` condition of the claim is neither
checked nor implied. -/
theorem c7_strict_concat_iff (fe : String → Bool) (results : List Models.EncoderResult) :
    (∃ out, Concatenator.Concatenate true fe results = .ok out) ↔
      (results ≠ [] ∧ (∀ r ∈ results, Concatenator.isSuccessful fe r = true) ∧
        (Concatenator.sortByChunkID results).Chain'
          (fun a b => b.chunkID ≤ a.chunkID + 1)) := by
  constructor
  · rintro ⟨out, h⟩
    by_cases hemp : results.isEmpty
    · exfalso
      unfold Concatenator.Concatenate Concatenator.validateResults at h
      rw [if_pos hemp] at h
      exact Except.noConfusion h
    · have hval : Concatenator.validateResults fe results =
          .ok (Concatenator.sortByChunkID
                (results.filter (Concatenator.isSuccessful fe)),
              results.filter (fun r => !Concatenator.isSuccessful fe r)) := by
        unfold Concatenator.validateResults
        rw [if_neg hemp]
      unfold Concatenator.Concatenate at h
      simp only [hval] at h
      have hne : results ≠ [] := by
        intro hx
        rw [hx] at hemp
        exact hemp rfl
      by_cases hfail : 0 < (results.filter (fun r => !Concatenator.isSuccessful fe r)).length
      · rw [if_pos ⟨hfail, trivial⟩] at h
        exact absurd h (by intro hx; exact Except.noConfusion hx)
      · have hfailnil : results.filter (fun r => !Concatenator.isSuccessful fe r) = [] := by
          cases hx : results.filter (fun r => !Concatenator.isSuccessful fe r) with
          | nil => rfl
          | cons a l => rw [hx] at hfail; simp at hfail
        have hall : ∀ r ∈ results, Concatenator.isSuccessful fe r = true := by
          intro r hr
          have hx := List.filter_eq_nil_iff.mp hfailnil r hr
          rcases Bool.eq_false_or_eq_true (Concatenator.isSuccessful fe r) with hb | hb
          · exact hb
          · exact absurd (by rw [hb]; rfl) hx
        refine ⟨hne, hall, ?_⟩
        rw [if_neg (by intro hx; exact hfail hx.1)] at h
        have hfs : results.filter (Concatenator.isSuccessful fe) = results :=
          List.filter_eq_self.mpr hall
        rw [hfs] at h
        by_cases hse : (Concatenator.sortByChunkID results).isEmpty
        · rw [if_pos hse] at h
          exact absurd h (by intro hx; exact Except.noConfusion hx)
        · rw [if_neg hse] at h
          cases hgap : Concatenator.checkForGaps (Concatenator.sortByChunkID results) with
          | error e =>
            rw [hgap] at h
            simp only [if_true] at h
            exact absurd h (by intro hx; exact Except.noConfusion hx)
          | ok u =>
            unfold Concatenator.checkForGaps at hgap
            rw [if_neg hse] at hgap
            by_cases hg : Concatenator.collectGaps (Concatenator.sortByChunkID results) ≠ []
            · rw [if_pos hg] at hgap
              exact Except.noConfusion hgap
            · exact (Concatenator.collectGaps_eq_nil_iff _).mp (not_not.mp hg)
  · rintro ⟨hne, hall, hchain⟩
    have hemp : ¬ results.isEmpty = true := by
      cases results with
      | nil => exact absurd rfl hne
      | cons a l => simp
    have hval : Concatenator.validateResults fe results =
        .ok (Concatenator.sortByChunkID
              (results.filter (Concatenator.isSuccessful fe)),
            results.filter (fun r => !Concatenator.isSuccessful fe r)) := by
      unfold Concatenator.validateResults
      rw [if_neg hemp]
    have hfs : results.filter (Concatenator.isSuccessful fe) = results :=
      List.filter_eq_self.mpr hall
    have hfailnil : results.filter (fun r => !Concatenator.isSuccessful fe r) = [] := by
      rw [List.filter_eq_nil_iff]
      intro a ha
      simp [hall a ha]
    refine ⟨Concatenator.sortByChunkID results, ?_⟩
    unfold Concatenator.Concatenate
    simp only [hval, hfs, hfailnil]
    rw [if_neg (by simp)]
    have hse : ¬ (Concatenator.sortByChunkID results).isEmpty = true := by
      have hp := Concatenator.sortByChunkID_perm results
      intro hx
      rw [List.isEmpty_iff] at hx
      rw [hx] at hp
      exact hne (List.Perm.nil_eq hp).symm
    rw [if_neg hse]
    have hgap : Concatenator.checkForGaps (Concatenator.sortByChunkID results) = .ok () := by
      unfold Concatenator.checkForGaps
      rw [if_neg hse]
      rw [if_neg (not_not.mpr ((Concatenator.collectGaps_eq_nil_iff _).mpr hchain))]
    rw [hgap]

/-- C7, witness: the amended equivalence applied to two successful results
with ids 1 and 2 — strict concatenation reaches the join. -/
theorem c7_witness :
    ∃ out, Concatenator.Concatenate true (fun _ => true)
        [{ chunkID := 1, outputPath := "p1", success := true, errMsg := none },
         { chunkID := 2, outputPath := "p2", success := true, errMsg := none }] = .ok out :=
  (c7_strict_concat_iff (fun _ => true)
      [{ chunkID := 1, outputPath := "p1", success := true, errMsg := none },
       { chunkID := 2, outputPath := "p2", success := true, errMsg := none }]).mpr
    ⟨by decide, by decide, by
      have hs : Concatenator.sortByChunkID
          [{ chunkID := 1, outputPath := "p1", success := true, errMsg := none },
           { chunkID := 2, outputPath := "p2", success := true, errMsg := none }] =
          [{ chunkID := 1, outputPath := "p1", success := true, errMsg := none },
           { chunkID := 2, outputPath := "p2", success := true, errMsg := none }] := rfl
      rw [hs]
      simp [List.chain'_cons]⟩

namespace Orchestrator

theorem lookupTask_updateTask_self (tasks : List (String × Task)) (id : String)
    (f : Task → Task) :
    lookupTask (updateTask tasks id f) id = (lookupTask tasks id).map f := by
  induction tasks with
  | nil => rfl
  | cons p rest ih =>
    obtain ⟨k, u⟩ := p
    by_cases hk : (k == id) = true
    · simp [updateTask, lookupTask, hk]
    · simp [updateTask, lookupTask, hk, ih]

theorem lookupTask_updateTask_ne (tasks : List (String × Task)) (id id' : String)
    (f : Task → Task) (h : id' ≠ id) :
    lookupTask (updateTask tasks id f) id' = lookupTask tasks id' := by
  induction tasks with
  | nil => rfl
  | cons p rest ih =>
    obtain ⟨k, u⟩ := p
    by_cases hk : (k == id) = true
    · have hk2 : ¬ ((k == id') = true) := by
        intro hx
        exact h ((beq_iff_eq.mp hx).symm.trans (beq_iff_eq.mp hk))
      simp [updateTask, lookupTask, hk, hk2]
    · by_cases hk2 : (k == id') = true
      · simp [updateTask, lookupTask, hk, hk2]
      · simp [updateTask, lookupTask, hk, hk2, ih]

theorem lookupTask_mem (tasks : List (String × Task)) (id : String) (t : Task)
    (h : lookupTask tasks id = some t) : (id, t) ∈ tasks := by
  induction tasks with
  | nil => exact absurd h (by simp [lookupTask])
  | cons p rest ih =>
    obtain ⟨k, u⟩ := p
    unfold lookupTask at h
    by_cases hk : (k == id) = true
    · rw [if_pos hk] at h
      cases h
      have hke : k = id := beq_iff_eq.mp hk
      subst hke
      exact List.mem_cons_self _ _
    · rw [if_neg hk] at h
      exact List.mem_cons_of_mem _ (ih h)

/-- Contribution of one task entry to the running count of a tag. -/
def runContrib (t : Task) (tag : String) : Nat :=
  if t.status = TaskStatus.running ∧ t.resource = tag then 1 else 0

/-- The number of `Running` tasks holding the resource `tag` — the quantity
the slot counter of the Go orchestrator tracks. -/
def countRunningTag (tasks : List (String × Task)) (tag : String) : Nat :=
  (tasks.map (fun p => runContrib p.2 tag)).sum

theorem countRunningTag_updateTask (id : String) (f : Task → Task) (tag : String) :
    ∀ tasks t, lookupTask tasks id = some t →
      countRunningTag (updateTask tasks id f) tag + runContrib t tag =
        countRunningTag tasks tag + runContrib (f t) tag := by
  intro tasks
  induction tasks with
  | nil => intro t h; exact absurd h (by simp [lookupTask])
  | cons p rest ih =>
    intro t h
    obtain ⟨k, u⟩ := p
    unfold lookupTask at h
    by_cases hk : (k == id) = true
    · rw [if_pos hk] at h
      cases h
      unfold updateTask
      rw [if_pos hk]
      simp only [countRunningTag, List.map_cons, List.sum_cons]
      omega
    · rw [if_neg hk] at h
      have hrec := ih t h
      unfold updateTask
      rw [if_neg hk]
      simp only [countRunningTag, List.map_cons, List.sum_cons] at hrec ⊢
      omega

end Orchestrator

namespace Orchestrator

theorem dependenciesMet_iff (tasks : List (String × Task)) (t : Task) :
    dependenciesMet tasks t = true ↔
      ∀ d ∈ t.deps, ∃ dt, lookupTask tasks d = some dt ∧ dt.status = .completed := by
  unfold dependenciesMet
  rw [List.all_eq_true]
  constructor
  · intro h d hd
    have hx := h d hd
    cases hl : lookupTask tasks d with
    | none => rw [hl] at hx; exact absurd hx (by simp)
    | some dt =>
      rw [hl] at hx
      exact ⟨dt, rfl, beq_iff_eq.mp hx⟩
  · intro h d hd
    obtain ⟨dt, hl, hs⟩ := h d hd
    rw [hl]
    exact beq_iff_eq.mpr hs

theorem dependenciesMet_false_of_failed (tasks : List (String × Task)) (t : Task)
    (h : ∃ d ∈ t.deps, ∃ dt, lookupTask tasks d = some dt ∧ dt.status = .failed) :
    dependenciesMet tasks t = false := by
  obtain ⟨d, hd, dt, hl, hs⟩ := h
  cases hb : dependenciesMet tasks t with
  | false => rfl
  | true =>
    obtain ⟨dt2, hl2, hs2⟩ := (dependenciesMet_iff tasks t).mp hb d hd
    rw [hl] at hl2
    cases hl2
    rw [hs] at hs2
    exact absurd hs2 (by intro hx; exact TaskStatus.noConfusion hx)

theorem tryAcquire_ne (cons : List (String × Nat)) (active : String → Nat)
    (tag tag' : String) (h : tag' ≠ tag) :
    (tryAcquireResource cons active tag).2 tag' = active tag' := by
  unfold tryAcquireResource
  cases hl : lookupCons cons tag with
  | none => simp only [hl]
  | some m =>
    simp only [hl]
    by_cases hm : active tag < m
    · rw [if_pos hm]
      show (if (tag' == tag) = true then _ else _) = _
      rw [if_neg (by simpa using h)]
    · rw [if_neg hm]

theorem tryAcquire_some_true (cons : List (String × Nat)) (active : String → Nat)
    (tag : String) (m : Nat) (h : lookupCons cons tag = some m)
    (ht : (tryAcquireResource cons active tag).1 = true) :
    active tag < m ∧ (tryAcquireResource cons active tag).2 tag = active tag + 1 := by
  unfold tryAcquireResource at ht ⊢
  simp only [h] at ht ⊢
  by_cases hm : active tag < m
  · rw [if_pos hm]
    refine ⟨hm, ?_⟩
    show (if (tag == tag) = true then _ else _) = _
    rw [if_pos (by simp)]
  · rw [if_neg hm] at ht
    exact absurd ht (by simp)

theorem tryAcquire_none_eq (cons : List (String × Nat)) (active : String → Nat)
    (tag : String) (h : lookupCons cons tag = none) :
    tryAcquireResource cons active tag = (true, active) := by
  unfold tryAcquireResource
  simp only [h]

theorem release_ne (active : String → Nat) (tag tag' : String) (h : tag' ≠ tag) :
    releaseResource active tag tag' = active tag' := by
  unfold releaseResource
  by_cases hp : 0 < active tag
  · rw [if_pos hp]
    show (if (tag' == tag) = true then _ else _) = _
    rw [if_neg (by simpa using h)]
  · rw [if_neg hp]

theorem release_pos (active : String → Nat) (tag : String) (h : 0 < active tag) :
    releaseResource active tag tag = active tag - 1 := by
  unfold releaseResource
  rw [if_pos h]
  show (if (tag == tag) = true then _ else _) = _
  rw [if_pos (by simp)]

/-- State invariant of the orchestrator, preserved by every `Step`. -/
structure Inv (cons : List (String × Nat)) (s : OrchState) : Prop where
  deps_completed : ∀ id t, lookupTask s.tasks id = some t →
    (t.status = .ready ∨ t.status = .running ∨ t.status = .completed ∨
      t.startTime.isSome = true) →
    ∀ d ∈ t.deps, ∃ dt, lookupTask s.tasks d = some dt ∧ dt.status = .completed
  start_lt_clock : ∀ id t, lookupTask s.tasks id = some t →
    ∀ τ, t.startTime = some τ → τ < s.clock
  end_lt_clock : ∀ id t, lookupTask s.tasks id = some t →
    ∀ e, t.endTime = some e → e < s.clock
  completed_end : ∀ id t, lookupTask s.tasks id = some t → t.status = .completed →
    ∃ e, t.endTime = some e
  start_after_deps : ∀ id t, lookupTask s.tasks id = some t →
    ∀ τ, t.startTime = some τ →
    ∀ d ∈ t.deps, ∃ dt e, lookupTask s.tasks d = some dt ∧ dt.status = .completed ∧
      dt.endTime = some e ∧ e < τ
  running_started : ∀ id t, lookupTask s.tasks id = some t → t.status = .running →
    t.startTime.isSome = true
  pending_clean : ∀ id t, lookupTask s.tasks id = some t →
    t.status = .pending ∨ t.status = .ready → t.startTime = none
  blocked_failed : ∀ id t, lookupTask s.tasks id = some t → t.status = .failed →
    t.startTime = none →
    t.errMsg = some "dependency failed" ∧
    t.result = some (finishResult t (some "dependency failed")) ∧ id ∈ s.completeCh
  failed_run : ∀ id t, lookupTask s.tasks id = some t → t.status = .failed →
    t.startTime.isSome = true →
    ∃ msg, t.errMsg = some msg ∧ t.result = some (finishResult t (some msg)) ∧
      id ∈ s.completeCh
  slots_count : ∀ tag m, lookupCons cons tag = some m →
    s.active tag = countRunningTag s.tasks tag ∧ countRunningTag s.tasks tag ≤ m

theorem inv_init (cons : List (String × Nat)) (specs : List TaskSpec) :
    Inv cons (initState specs) := by
  have hcount : ∀ tag, countRunningTag (initState specs).tasks tag = 0 := by
    intro tag
    show countRunningTag (specs.map (fun ts => (ts.id, initTask ts))) tag = 0
    induction specs with
    | nil => rfl
    | cons sp rest ih =>
      simp only [List.map_cons, countRunningTag, List.sum_cons] at ih ⊢
      rw [show runContrib (initTask sp) tag = 0 from by
        unfold runContrib initTask
        rw [if_neg]
        intro hx
        exact TaskStatus.noConfusion hx.1]
      simpa using ih
  have hinit : ∀ id t, lookupTask (initState specs).tasks id = some t →
      ∃ ts : TaskSpec, t = initTask ts := by
    intro id t h
    show ∃ ts : TaskSpec, t = initTask ts
    have hgen : ∀ (l : List TaskSpec) id t,
        lookupTask (l.map (fun ts => (ts.id, initTask ts))) id = some t →
        ∃ ts : TaskSpec, t = initTask ts := by
      intro l
      induction l with
      | nil => intro id t h; exact absurd h (by simp [lookupTask])
      | cons sp rest ih =>
        intro id t h
        unfold lookupTask at h
        simp only [List.map_cons] at h
        by_cases hk : (sp.id == id) = true
        · rw [if_pos hk] at h
          cases h
          exact ⟨sp, rfl⟩
        · rw [if_neg hk] at h
          exact ih id t h
    exact hgen specs id t h
  refine ⟨?_, ?_, ?_, ?_, ?_, ?_, ?_, ?_, ?_, ?_⟩
  · intro id t h hs
    obtain ⟨ts, rfl⟩ := hinit id t h
    rcases hs with h1 | h1 | h1 | h1
    · exact absurd h1 (by intro hx; exact TaskStatus.noConfusion hx)
    · exact absurd h1 (by intro hx; exact TaskStatus.noConfusion hx)
    · exact absurd h1 (by intro hx; exact TaskStatus.noConfusion hx)
    · exact absurd h1 (by simp [initTask])
  · intro id t h τ hτ
    obtain ⟨ts, rfl⟩ := hinit id t h
    exact absurd hτ (by simp [initTask])
  · intro id t h e he
    obtain ⟨ts, rfl⟩ := hinit id t h
    exact absurd he (by simp [initTask])
  · intro id t h hs
    obtain ⟨ts, rfl⟩ := hinit id t h
    exact absurd hs (by intro hx; exact TaskStatus.noConfusion hx)
  · intro id t h τ hτ
    obtain ⟨ts, rfl⟩ := hinit id t h
    exact absurd hτ (by simp [initTask])
  · intro id t h hs
    obtain ⟨ts, rfl⟩ := hinit id t h
    exact absurd hs (by intro hx; exact TaskStatus.noConfusion hx)
  · intro id t h _
    obtain ⟨ts, rfl⟩ := hinit id t h
    rfl
  · intro id t h hs
    obtain ⟨ts, rfl⟩ := hinit id t h
    exact absurd hs (by intro hx; exact TaskStatus.noConfusion hx)
  · intro id t h hs
    obtain ⟨ts, rfl⟩ := hinit id t h
    exact absurd hs (by intro hx; exact TaskStatus.noConfusion hx)
  · intro tag m hm
    refine ⟨?_, ?_⟩
    · rw [hcount tag]
      rfl
    · rw [hcount tag]
      exact Nat.zero_le m

end Orchestrator

namespace Orchestrator

theorem lookup_update_cases (tasks : List (String × Task)) (id : String)
    (f : Task → Task) (t : Task) (hl : lookupTask tasks id = some t) :
    ∀ id' t', lookupTask (updateTask tasks id f) id' = some t' →
      (id' = id ∧ t' = f t) ∨ (id' ≠ id ∧ lookupTask tasks id' = some t') := by
  intro id' t' h
  by_cases hdi : id' = id
  · subst hdi
    rw [lookupTask_updateTask_self, hl] at h
    cases h
    exact Or.inl ⟨rfl, rfl⟩
  · rw [lookupTask_updateTask_ne _ _ _ _ hdi] at h
    exact Or.inr ⟨hdi, h⟩

theorem lookup_update_completed_stable (tasks : List (String × Task)) (id : String)
    (f : Task → Task) (t : Task) (hl : lookupTask tasks id = some t)
    (hnc : t.status ≠ .completed) :
    ∀ d dt, lookupTask tasks d = some dt → dt.status = .completed →
      lookupTask (updateTask tasks id f) d = some dt := by
  intro d dt hd hc
  by_cases hdi : d = id
  · subst hdi
    rw [hd] at hl
    cases hl
    exact absurd hc hnc
  · rw [lookupTask_updateTask_ne _ _ _ _ hdi]
    exact hd

theorem inv_step (cons : List (String × Nat)) (s s' : OrchState)
    (hInv : Inv cons s) (hstep : Step cons s s') : Inv cons s' := by
  cases hstep with
  | promote id t hl hp hdm =>
    have hnc : t.status ≠ .completed := by rw [hp]; intro hx; exact TaskStatus.noConfusion hx
    have htr := lookup_update_completed_stable s.tasks id
      (fun u => { u with status := TaskStatus.ready }) t hl hnc
    have hcases := lookup_update_cases s.tasks id
      (fun u => { u with status := TaskStatus.ready }) t hl
    have hstart_none : t.startTime = none := hInv.pending_clean id t hl (Or.inl hp)
    refine ⟨?_, ?_, ?_, ?_, ?_, ?_, ?_, ?_, ?_, ?_⟩
    · dsimp only
      intro id' t' h hs
      rcases hcases id' t' h with ⟨rfl, rfl⟩ | ⟨hne, hlold⟩
      · intro d hd
        obtain ⟨dt, hdt, hdc⟩ := (dependenciesMet_iff s.tasks t).mp hdm d hd
        exact ⟨dt, htr d dt hdt hdc, hdc⟩
      · intro d hd
        obtain ⟨dt, hdt, hdc⟩ := hInv.deps_completed id' t' hlold hs d hd
        exact ⟨dt, htr d dt hdt hdc, hdc⟩
    · dsimp only
      intro id' t' h τ hτ
      rcases hcases id' t' h with ⟨rfl, rfl⟩ | ⟨hne, hlold⟩
      · rw [show ({ t with status := TaskStatus.ready } : Task).startTime = t.startTime
          from rfl, hstart_none] at hτ
        exact Option.noConfusion hτ
      · have := hInv.start_lt_clock id' t' hlold τ hτ
        omega
    · dsimp only
      intro id' t' h e he
      rcases hcases id' t' h with ⟨rfl, rfl⟩ | ⟨hne, hlold⟩
      · have := hInv.end_lt_clock _ t hl e he
        omega
      · have := hInv.end_lt_clock id' t' hlold e he
        omega
    · dsimp only
      intro id' t' h hs
      rcases hcases id' t' h with ⟨rfl, rfl⟩ | ⟨hne, hlold⟩
      · exact absurd hs (by intro hx; exact TaskStatus.noConfusion hx)
      · exact hInv.completed_end id' t' hlold hs
    · dsimp only
      intro id' t' h τ hτ
      rcases hcases id' t' h with ⟨rfl, rfl⟩ | ⟨hne, hlold⟩
      · rw [show ({ t with status := TaskStatus.ready } : Task).startTime = t.startTime
          from rfl, hstart_none] at hτ
        exact Option.noConfusion hτ
      · intro d hd
        obtain ⟨dt, e, hdt, hdc, hde, hlt⟩ := hInv.start_after_deps id' t' hlold τ hτ d hd
        exact ⟨dt, e, htr d dt hdt hdc, hdc, hde, hlt⟩
    · dsimp only
      intro id' t' h hs
      rcases hcases id' t' h with ⟨rfl, rfl⟩ | ⟨hne, hlold⟩
      · exact absurd hs (by intro hx; exact TaskStatus.noConfusion hx)
      · exact hInv.running_started id' t' hlold hs
    · dsimp only
      intro id' t' h hs
      rcases hcases id' t' h with ⟨rfl, rfl⟩ | ⟨hne, hlold⟩
      · exact hstart_none
      · exact hInv.pending_clean id' t' hlold hs
    · dsimp only
      intro id' t' h hs hn
      rcases hcases id' t' h with ⟨rfl, rfl⟩ | ⟨hne, hlold⟩
      · exact absurd hs (by intro hx; exact TaskStatus.noConfusion hx)
      · exact hInv.blocked_failed id' t' hlold hs hn
    · dsimp only
      intro id' t' h hs hn
      rcases hcases id' t' h with ⟨rfl, rfl⟩ | ⟨hne, hlold⟩
      · exact absurd hs (by intro hx; exact TaskStatus.noConfusion hx)
      · exact hInv.failed_run id' t' hlold hs hn
    · dsimp only
      intro tag m hm
      obtain ⟨ha, hb⟩ := hInv.slots_count tag m hm
      have hcount := countRunningTag_updateTask id
        (fun u => { u with status := TaskStatus.ready }) tag s.tasks t hl
      have hc1 : runContrib t tag = 0 := by
        unfold runContrib
        rw [if_neg]
        intro hx
        rw [hp] at hx
        exact TaskStatus.noConfusion hx.1
      have hc2 : runContrib { t with status := TaskStatus.ready } tag = 0 := by
        unfold runContrib
        rw [if_neg]
        intro hx
        exact TaskStatus.noConfusion hx.1
      rw [hc1, hc2] at hcount
      constructor
      · show s.active tag = _
        omega
      · omega
  | dispatch id t hl hr hacq =>
    have hnc : t.status ≠ .completed := by rw [hr]; intro hx; exact TaskStatus.noConfusion hx
    have htr := lookup_update_completed_stable s.tasks id
      (fun u => { u with status := TaskStatus.running, startTime := some s.clock }) t hl hnc
    have hcases := lookup_update_cases s.tasks id
      (fun u => { u with status := TaskStatus.running, startTime := some s.clock }) t hl
    refine ⟨?_, ?_, ?_, ?_, ?_, ?_, ?_, ?_, ?_, ?_⟩
    · dsimp only
      intro id' t' h hs
      rcases hcases id' t' h with ⟨rfl, rfl⟩ | ⟨hne, hlold⟩
      · intro d hd
        obtain ⟨dt, hdt, hdc⟩ := hInv.deps_completed _ t hl (Or.inl hr) d hd
        exact ⟨dt, htr d dt hdt hdc, hdc⟩
      · intro d hd
        obtain ⟨dt, hdt, hdc⟩ := hInv.deps_completed id' t' hlold hs d hd
        exact ⟨dt, htr d dt hdt hdc, hdc⟩
    · dsimp only
      intro id' t' h τ hτ
      rcases hcases id' t' h with ⟨rfl, rfl⟩ | ⟨hne, hlold⟩
      · rw [show ({ t with status := TaskStatus.running, startTime := some s.clock } : Task).startTime
          = some s.clock from rfl] at hτ
        cases hτ
        omega
      · have := hInv.start_lt_clock id' t' hlold τ hτ
        omega
    · dsimp only
      intro id' t' h e he
      rcases hcases id' t' h with ⟨rfl, rfl⟩ | ⟨hne, hlold⟩
      · have := hInv.end_lt_clock _ t hl e he
        omega
      · have := hInv.end_lt_clock id' t' hlold e he
        omega
    · dsimp only
      intro id' t' h hs
      rcases hcases id' t' h with ⟨rfl, rfl⟩ | ⟨hne, hlold⟩
      · exact absurd hs (by intro hx; exact TaskStatus.noConfusion hx)
      · exact hInv.completed_end id' t' hlold hs
    · dsimp only
      intro id' t' h τ hτ
      rcases hcases id' t' h with ⟨rfl, rfl⟩ | ⟨hne, hlold⟩
      · rw [show ({ t with status := TaskStatus.running, startTime := some s.clock } : Task).startTime
          = some s.clock from rfl] at hτ
        cases hτ
        intro d hd
        obtain ⟨dt, hdt, hdc⟩ := hInv.deps_completed _ t hl (Or.inl hr) d hd
        obtain ⟨e, he⟩ := hInv.completed_end d dt hdt hdc
        have hlt := hInv.end_lt_clock d dt hdt e he
        exact ⟨dt, e, htr d dt hdt hdc, hdc, he, hlt⟩
      · intro d hd
        obtain ⟨dt, e, hdt, hdc, hde, hlt⟩ := hInv.start_after_deps id' t' hlold τ hτ d hd
        exact ⟨dt, e, htr d dt hdt hdc, hdc, hde, hlt⟩
    · dsimp only
      intro id' t' h hs
      rcases hcases id' t' h with ⟨rfl, rfl⟩ | ⟨hne, hlold⟩
      · rfl
      · exact hInv.running_started id' t' hlold hs
    · dsimp only
      intro id' t' h hs
      rcases hcases id' t' h with ⟨rfl, rfl⟩ | ⟨hne, hlold⟩
      · rcases hs with hx | hx <;> exact absurd hx (by intro hy; exact TaskStatus.noConfusion hy)
      · exact hInv.pending_clean id' t' hlold hs
    · dsimp only
      intro id' t' h hs hn
      rcases hcases id' t' h with ⟨rfl, rfl⟩ | ⟨hne, hlold⟩
      · exact absurd hs (by intro hx; exact TaskStatus.noConfusion hx)
      · exact hInv.blocked_failed id' t' hlold hs hn
    · dsimp only
      intro id' t' h hs hn
      rcases hcases id' t' h with ⟨rfl, rfl⟩ | ⟨hne, hlold⟩
      · exact absurd hs (by intro hx; exact TaskStatus.noConfusion hx)
      · exact hInv.failed_run id' t' hlold hs hn
    · dsimp only
      intro tag m hm
      obtain ⟨ha, hb⟩ := hInv.slots_count tag m hm
      have hcount := countRunningTag_updateTask id
        (fun u => { u with status := TaskStatus.running, startTime := some s.clock })
        tag s.tasks t hl
      have hc1 : runContrib t tag = 0 := by
        unfold runContrib
        rw [if_neg]
        intro hx
        rw [hr] at hx
        exact TaskStatus.noConfusion hx.1
      by_cases htag : tag = t.resource
      · subst htag
        cases hres : lookupCons cons t.resource with
        | none => rw [hres] at hm; exact Option.noConfusion hm
        | some m2 =>
          rw [hres] at hm
          cases hm
          obtain ⟨hlt, hupd⟩ := tryAcquire_some_true cons s.active t.resource m hres hacq
          have hc2 : runContrib
              ({ t with
                status := TaskStatus.running,
                startTime := some s.clock }) t.resource = 1 := by
            unfold runContrib
            rw [if_pos ⟨rfl, rfl⟩]
          rw [hc1, hc2] at hcount
          constructor
          · show (tryAcquireResource cons s.active t.resource).2 t.resource = _
            rw [hupd, ha]
            omega
          · omega
      · have hc2 : runContrib
            ({ t with
              status := TaskStatus.running,
              startTime := some s.clock }) tag = 0 := by
          unfold runContrib
          rw [if_neg]
          intro hx
          exact htag (hx.2.symm)
        rw [hc1, hc2] at hcount
        constructor
        · show (tryAcquireResource cons s.active t.resource).2 tag = _
          rw [tryAcquire_ne cons s.active t.resource tag htag, ha]
          omega
        · omega
  | finish id t err hl hr =>
    have hnc : t.status ≠ .completed := by rw [hr]; intro hx; exact TaskStatus.noConfusion hx
    have htr := lookup_update_completed_stable s.tasks id
      (finishUpdate s.clock err) t hl hnc
    have hcases := lookup_update_cases s.tasks id
      (finishUpdate s.clock err) t hl
    have hst : t.startTime.isSome = true := hInv.running_started id t hl hr
    refine ⟨?_, ?_, ?_, ?_, ?_, ?_, ?_, ?_, ?_, ?_⟩
    · dsimp only
      intro id' t' h hs
      rcases hcases id' t' h with ⟨rfl, rfl⟩ | ⟨hne, hlold⟩
      · intro d hd
        obtain ⟨dt, hdt, hdc⟩ := hInv.deps_completed _ t hl (Or.inr (Or.inl hr)) d hd
        exact ⟨dt, htr d dt hdt hdc, hdc⟩
      · intro d hd
        obtain ⟨dt, hdt, hdc⟩ := hInv.deps_completed id' t' hlold hs d hd
        exact ⟨dt, htr d dt hdt hdc, hdc⟩
    · dsimp only
      intro id' t' h τ hτ
      rcases hcases id' t' h with ⟨rfl, rfl⟩ | ⟨hne, hlold⟩
      · have := hInv.start_lt_clock _ t hl τ hτ
        omega
      · have := hInv.start_lt_clock id' t' hlold τ hτ
        omega
    · dsimp only
      intro id' t' h e he
      rcases hcases id' t' h with ⟨rfl, rfl⟩ | ⟨hne, hlold⟩
      · cases he
        omega
      · have := hInv.end_lt_clock id' t' hlold e he
        omega
    · dsimp only
      intro id' t' h hs
      rcases hcases id' t' h with ⟨rfl, rfl⟩ | ⟨hne, hlold⟩
      · exact ⟨s.clock, rfl⟩
      · exact hInv.completed_end id' t' hlold hs
    · dsimp only
      intro id' t' h τ hτ
      rcases hcases id' t' h with ⟨rfl, rfl⟩ | ⟨hne, hlold⟩
      · intro d hd
        obtain ⟨dt, e, hdt, hdc, hde, hlt⟩ := hInv.start_after_deps _ t hl τ hτ d hd
        exact ⟨dt, e, htr d dt hdt hdc, hdc, hde, hlt⟩
      · intro d hd
        obtain ⟨dt, e, hdt, hdc, hde, hlt⟩ := hInv.start_after_deps id' t' hlold τ hτ d hd
        exact ⟨dt, e, htr d dt hdt hdc, hdc, hde, hlt⟩
    · dsimp only
      intro id' t' h hs
      rcases hcases id' t' h with ⟨rfl, rfl⟩ | ⟨hne, hlold⟩
      · exfalso
        cases err with
        | none => exact TaskStatus.noConfusion hs
        | some msg => exact TaskStatus.noConfusion hs
      · exact hInv.running_started id' t' hlold hs
    · dsimp only
      intro id' t' h hs
      rcases hcases id' t' h with ⟨rfl, rfl⟩ | ⟨hne, hlold⟩
      · exfalso
        cases err with
        | none => rcases hs with hx | hx <;> exact TaskStatus.noConfusion hx
        | some msg => rcases hs with hx | hx <;> exact TaskStatus.noConfusion hx
      · exact hInv.pending_clean id' t' hlold hs
    · dsimp only
      intro id' t' h hs hn
      rcases hcases id' t' h with ⟨rfl, rfl⟩ | ⟨hne, hlold⟩
      · exfalso
        rw [show (finishUpdate s.clock err t).startTime = t.startTime from rfl] at hn
        rw [hn] at hst
        exact Bool.noConfusion hst
      · obtain ⟨h1, h2, h3⟩ := hInv.blocked_failed id' t' hlold hs hn
        exact ⟨h1, h2, List.mem_append_left _ h3⟩
    · dsimp only
      intro id' t' h hs hn
      rcases hcases id' t' h with ⟨rfl, rfl⟩ | ⟨hne, hlold⟩
      · cases err with
        | none => exact absurd hs (fun hx => TaskStatus.noConfusion hx)
        | some msg =>
          exact ⟨msg, rfl, rfl, List.mem_append_right _ (List.mem_singleton.mpr rfl)⟩
      · obtain ⟨msg, h1, h2, h3⟩ := hInv.failed_run id' t' hlold hs hn
        exact ⟨msg, h1, h2, List.mem_append_left _ h3⟩
    · dsimp only
      intro tag m hm
      obtain ⟨ha, hb⟩ := hInv.slots_count tag m hm
      have hcount := countRunningTag_updateTask id
        (finishUpdate s.clock err) tag s.tasks t hl
      have hc2 : runContrib (finishUpdate s.clock err t) tag = 0 := by
        unfold runContrib
        rw [if_neg]
        intro hx
        have hsx := hx.1
        cases err with
        | none => exact TaskStatus.noConfusion hsx
        | some msg => exact TaskStatus.noConfusion hsx
      by_cases htag : tag = t.resource
      · subst htag
        have hc1 : runContrib t t.resource = 1 := by
          unfold runContrib
          rw [if_pos ⟨hr, rfl⟩]
        rw [hc1, hc2] at hcount
        have hpos : 0 < countRunningTag s.tasks t.resource := by omega
        have hapos : 0 < s.active t.resource := by omega
        constructor
        · show releaseResource s.active t.resource t.resource = _
          rw [release_pos s.active t.resource hapos, ha]
          omega
        · omega
      · have hc1 : runContrib t tag = 0 := by
          unfold runContrib
          rw [if_neg]
          intro hx
          exact htag (hx.2.symm)
        rw [hc1, hc2] at hcount
        constructor
        · show releaseResource s.active t.resource tag = _
          rw [release_ne s.active t.resource tag htag, ha]
          omega
        · omega
  | markBlocked id t fuel hl hp hfd =>
    have hnc : t.status ≠ .completed := by
      rcases hp with hx | hx <;> (rw [hx]; intro hy; exact TaskStatus.noConfusion hy)
    have htr := lookup_update_completed_stable s.tasks id
      blockUpdate t hl hnc
    have hcases := lookup_update_cases s.tasks id
      blockUpdate t hl
    have hstart_none : t.startTime = none := hInv.pending_clean id t hl hp
    refine ⟨?_, ?_, ?_, ?_, ?_, ?_, ?_, ?_, ?_, ?_⟩
    · dsimp only
      intro id' t' h hs
      rcases hcases id' t' h with ⟨rfl, rfl⟩ | ⟨hne, hlold⟩
      · exfalso
        rcases hs with hx | hx | hx | hx
        · exact TaskStatus.noConfusion hx
        · exact TaskStatus.noConfusion hx
        · exact TaskStatus.noConfusion hx
        · rw [show (blockUpdate t).startTime
            = t.startTime from rfl, hstart_none] at hx
          exact Bool.noConfusion hx
      · intro d hd
        obtain ⟨dt, hdt, hdc⟩ := hInv.deps_completed id' t' hlold hs d hd
        exact ⟨dt, htr d dt hdt hdc, hdc⟩
    · dsimp only
      intro id' t' h τ hτ
      rcases hcases id' t' h with ⟨rfl, rfl⟩ | ⟨hne, hlold⟩
      · rw [show (blockUpdate t).startTime
          = t.startTime from rfl, hstart_none] at hτ
        exact Option.noConfusion hτ
      · have := hInv.start_lt_clock id' t' hlold τ hτ
        omega
    · dsimp only
      intro id' t' h e he
      rcases hcases id' t' h with ⟨rfl, rfl⟩ | ⟨hne, hlold⟩
      · have := hInv.end_lt_clock _ t hl e he
        omega
      · have := hInv.end_lt_clock id' t' hlold e he
        omega
    · dsimp only
      intro id' t' h hs
      rcases hcases id' t' h with ⟨rfl, rfl⟩ | ⟨hne, hlold⟩
      · exact absurd hs (by intro hx; exact TaskStatus.noConfusion hx)
      · exact hInv.completed_end id' t' hlold hs
    · dsimp only
      intro id' t' h τ hτ
      rcases hcases id' t' h with ⟨rfl, rfl⟩ | ⟨hne, hlold⟩
      · rw [show (blockUpdate t).startTime
          = t.startTime from rfl, hstart_none] at hτ
        exact Option.noConfusion hτ
      · intro d hd
        obtain ⟨dt, e, hdt, hdc, hde, hlt⟩ := hInv.start_after_deps id' t' hlold τ hτ d hd
        exact ⟨dt, e, htr d dt hdt hdc, hdc, hde, hlt⟩
    · dsimp only
      intro id' t' h hs
      rcases hcases id' t' h with ⟨rfl, rfl⟩ | ⟨hne, hlold⟩
      · exact absurd hs (by intro hx; exact TaskStatus.noConfusion hx)
      · exact hInv.running_started id' t' hlold hs
    · dsimp only
      intro id' t' h hs
      rcases hcases id' t' h with ⟨rfl, rfl⟩ | ⟨hne, hlold⟩
      · rcases hs with hx | hx <;> exact absurd hx (by intro hy; exact TaskStatus.noConfusion hy)
      · exact hInv.pending_clean id' t' hlold hs
    · dsimp only
      intro id' t' h hs hn
      rcases hcases id' t' h with ⟨rfl, rfl⟩ | ⟨hne, hlold⟩
      · refine ⟨rfl, rfl, ?_⟩
        exact List.mem_append_right _ (List.mem_singleton.mpr rfl)
      · obtain ⟨h1, h2, h3⟩ := hInv.blocked_failed id' t' hlold hs hn
        exact ⟨h1, h2, List.mem_append_left _ h3⟩
    · dsimp only
      intro id' t' h hs hn
      rcases hcases id' t' h with ⟨rfl, rfl⟩ | ⟨hne, hlold⟩
      · exfalso
        rw [show (blockUpdate t).startTime
          = t.startTime from rfl, hstart_none] at hn
        exact Bool.noConfusion hn
      · obtain ⟨msg, h1, h2, h3⟩ := hInv.failed_run id' t' hlold hs hn
        exact ⟨msg, h1, h2, List.mem_append_left _ h3⟩
    · dsimp only
      intro tag m hm
      obtain ⟨ha, hb⟩ := hInv.slots_count tag m hm
      have hcount := countRunningTag_updateTask id
        blockUpdate tag s.tasks t hl
      have hc1 : runContrib t tag = 0 := by
        unfold runContrib
        rw [if_neg]
        intro hx
        rcases hp with hy | hy <;> (rw [hy] at hx; exact TaskStatus.noConfusion hx.1)
      have hc2 : runContrib (blockUpdate t) tag = 0 := by
        unfold runContrib
        rw [if_neg]
        intro hx
        exact TaskStatus.noConfusion hx.1
      rw [hc1, hc2] at hcount
      constructor
      · show s.active tag = _
        omega
      · omega

end Orchestrator

namespace Orchestrator

theorem reachable_inv (cons : List (String × Nat)) (specs : List TaskSpec)
    (s : OrchState) (h : Reachable cons specs s) : Inv cons s := by
  induction h with
  | refl => exact inv_init cons specs
  | tail _ hstep ih => exact inv_step _ _ _ ih hstep

end Orchestrator

namespace Orchestrator

/-- Concrete resource constraints for the demonstration runs: one `cpu`
slot. -/
def demoCons : List (String × Nat) := [("cpu", 1)]

/-- A demonstration task with no dependencies. -/
def demoSpecA : TaskSpec :=
  { id := "a", deps := [], resource := "cpu", outputPath := "/tmp/a.mp4" }

/-- A demonstration task depending on `a`. -/
def demoSpecB : TaskSpec :=
  { id := "b", deps := ["a"], resource := "cpu", outputPath := "/tmp/b.mp4" }

/-- The admitted demonstration task set. -/
def demoSpecs : List TaskSpec := [demoSpecA, demoSpecB]

/-- Initial demonstration state. -/
def demoS0 : OrchState := initState demoSpecs

/-- After promoting `a` to `Ready`. -/
def demoS1 : OrchState :=
  { demoS0 with
    tasks := updateTask demoS0.tasks "a" (fun u => { u with status := .ready }),
    clock := demoS0.clock + 1 }

/-- After dispatching `a`. -/
def demoS2 : OrchState :=
  { demoS1 with
    tasks := updateTask demoS1.tasks "a"
      (fun u => { u with status := .running, startTime := some demoS1.clock }),
    active := (tryAcquireResource demoCons demoS1.active "cpu").2,
    clock := demoS1.clock + 1 }

/-- After `a`'s command returns without error. -/
def demoS3 : OrchState :=
  { demoS2 with
    tasks := updateTask demoS2.tasks "a" (finishUpdate demoS2.clock none),
    active := releaseResource demoS2.active "cpu",
    completeCh := demoS2.completeCh ++ ["a"],
    clock := demoS2.clock + 1 }

/-- After promoting `b` to `Ready`. -/
def demoS4 : OrchState :=
  { demoS3 with
    tasks := updateTask demoS3.tasks "b" (fun u => { u with status := .ready }),
    clock := demoS3.clock + 1 }

/-- After dispatching `b`. -/
def demoS5 : OrchState :=
  { demoS4 with
    tasks := updateTask demoS4.tasks "b"
      (fun u => { u with status := .running, startTime := some demoS4.clock }),
    active := (tryAcquireResource demoCons demoS4.active "cpu").2,
    clock := demoS4.clock + 1 }

theorem demo_reach1 : Reachable demoCons demoSpecs demoS1 :=
  Relation.ReflTransGen.tail Relation.ReflTransGen.refl
    (Step.promote demoS0 "a" (initTask demoSpecA) rfl rfl rfl)

theorem demo_reach2 : Reachable demoCons demoSpecs demoS2 :=
  Relation.ReflTransGen.tail demo_reach1
    (Step.dispatch demoS1 "a" { initTask demoSpecA with status := .ready } rfl rfl rfl)

theorem demo_reach3 : Reachable demoCons demoSpecs demoS3 :=
  Relation.ReflTransGen.tail demo_reach2
    (Step.finish demoS2 "a"
      { initTask demoSpecA with status := .running, startTime := some 1 } none rfl rfl)

theorem demo_reach4 : Reachable demoCons demoSpecs demoS4 :=
  Relation.ReflTransGen.tail demo_reach3
    (Step.promote demoS3 "b" (initTask demoSpecB) rfl rfl rfl)

theorem demo_reach5 : Reachable demoCons demoSpecs demoS5 :=
  Relation.ReflTransGen.tail demo_reach4
    (Step.dispatch demoS4 "b" { initTask demoSpecB with status := .ready } rfl rfl rfl)

end Orchestrator

namespace Orchestrator

/-- C1.  In every reachable state of the orchestrator model: (i) whenever a
task `B` has been started (its start time is recorded), every declared
dependency `A` of `B` is registered, has status `Completed`, and its recorded
end time strictly precedes `B`'s start time; (ii) a `Failed` dependency never
satisfies the `dependenciesMet` start precondition. -/
theorem c1_dependency_ordering (cons : List (String × Nat)) (specs : List TaskSpec)
    (s : OrchState) (h : Reachable cons specs s) :
    (∀ idB tB, lookupTask s.tasks idB = some tB →
      ∀ τ, tB.startTime = some τ →
      ∀ idA ∈ tB.deps, ∃ tA e, lookupTask s.tasks idA = some tA ∧
        tA.status = TaskStatus.completed ∧ tA.endTime = some e ∧ e < τ) ∧
    (∀ tB, (∃ idA ∈ tB.deps, ∃ tA, lookupTask s.tasks idA = some tA ∧
        tA.status = TaskStatus.failed) →
      dependenciesMet s.tasks tB = false) := by
  have hI := reachable_inv cons specs s h
  exact ⟨hI.start_after_deps, fun tB hx => dependenciesMet_false_of_failed s.tasks tB hx⟩

/-- C1, witness: on the two-task demonstration run, dispatched task `b`
(started at clock 4) finds its dependency `a` completed with an earlier end
time. -/
theorem c1_witness :
    ∃ tA e, lookupTask demoS5.tasks "a" = some tA ∧
      tA.status = TaskStatus.completed ∧ tA.endTime = some e ∧ e < 4 :=
  (c1_dependency_ordering demoCons demoSpecs demoS5 demo_reach5).1 "b"
    { initTask demoSpecB with status := .running, startTime := some 4 }
    rfl 4 rfl "a" (List.mem_singleton.mpr rfl)

/-- C2.  In every reachable state: the number of `Running` tasks holding a
constrained resource tag never exceeds its configured slot count (and the
slot table agrees with that count); acquisition on a tag with no configured
constraint always succeeds and leaves the table unchanged. -/
theorem c2_resource_limits (cons : List (String × Nat)) (specs : List TaskSpec)
    (s : OrchState) (h : Reachable cons specs s) :
    (∀ tag m, lookupCons cons tag = some m →
      s.active tag = countRunningTag s.tasks tag ∧ countRunningTag s.tasks tag ≤ m) ∧
    (∀ active tag, lookupCons cons tag = none →
      tryAcquireResource cons active tag = (true, active)) := by
  have hI := reachable_inv cons specs s h
  exact ⟨hI.slots_count, fun active tag hn => tryAcquire_none_eq cons active tag hn⟩

/-- C2, witness: in the demonstration state where `a` is running, the single
`cpu` slot is exactly occupied and within bound, and acquiring an
unconstrained tag succeeds. -/
theorem c2_witness :
    (demoS2.active "cpu" = countRunningTag demoS2.tasks "cpu" ∧
      countRunningTag demoS2.tasks "cpu" ≤ 1) ∧
    tryAcquireResource demoCons (fun _ => 0) "gpu" = (true, fun _ => 0) :=
  ⟨(c2_resource_limits demoCons demoSpecs demoS2 demo_reach2).1 "cpu" 1 rfl,
   (c2_resource_limits demoCons demoSpecs demoS2 demo_reach2).2 (fun _ => 0) "gpu" rfl⟩

end Orchestrator

namespace Orchestrator

/-- Failing variant of the demonstration run: `a`'s command returns the
error `"mock command failed"`. -/
def demoF3 : OrchState :=
  { demoS2 with
    tasks := updateTask demoS2.tasks "a"
      (finishUpdate demoS2.clock (some "mock command failed")),
    active := releaseResource demoS2.active "cpu",
    completeCh := demoS2.completeCh ++ ["a"],
    clock := demoS2.clock + 1 }

theorem demo_reachF3 : Reachable demoCons demoSpecs demoF3 :=
  Relation.ReflTransGen.tail demo_reach2
    (Step.finish demoS2 "a"
      { initTask demoSpecA with status := .running, startTime := some 1 }
      (some "mock command failed") rfl rfl)

/-- The result record `executeTask` writes for a failed command with output
path `p` and error message `msg`. -/
def failedResult (p : String) (msg : String) : Models.EncoderResult :=
  { chunkID := 0, outputPath := p, success := false, errMsg := some msg }

/-- The task record of `a` after its command failed. -/
def demoFailedA : Task :=
  finishUpdate 2 (some "mock command failed")
    { initTask demoSpecA with status := .running, startTime := some 1 }

/-- C3, counterexample.  On a reachable state of the model in which `a`'s
command failed, the recorded result keeps the command's output path
`"/tmp/a.mp4"` — it is not empty — and `models.EncoderResult.Validate`
rejects the record.  This refutes the claim that the output path of a failed
result is absent and that the result satisfies the failure invariant. -/
theorem c3_counterexample :
    Reachable demoCons demoSpecs demoF3 ∧
    lookupTask demoF3.tasks "a" = some demoFailedA ∧
    demoFailedA.status = TaskStatus.failed ∧
    demoFailedA.result = some (failedResult "/tmp/a.mp4" "mock command failed") ∧
    Models.trimSpace "/tmp/a.mp4" ≠ "" ∧
    Models.EncoderResult.Validate (failedResult "/tmp/a.mp4" "mock command failed") =
      .error "failed result should not have output_path" :=
  ⟨demo_reachF3, rfl, rfl, rfl, by decide, rfl⟩

/-- C3, amended.  When a command returns an error the task does transition to
`Failed` with the error captured, `success = false`, and the task id reported
through the completion channel — but the recorded result keeps the command's
output path (it is **not** cleared), so whenever that path is non-blank the
recorded result violates the model's failure invariant
(`EncoderResult.Validate` rejects it): (i) the mutation applied on an erring
command marks the task `Failed` and stores exactly that result; (ii) in every
reachable state, every failed task that was actually started carries such a
result and was reported. -/
theorem c3_failure_recording (cons : List (String × Nat)) (specs : List TaskSpec)
    (s : OrchState) (h : Reachable cons specs s) :
    (∀ clock msg u, (finishUpdate clock (some msg) u).status = TaskStatus.failed ∧
      (finishUpdate clock (some msg) u).result =
        some (failedResult u.outputPath msg)) ∧
    (∀ id t, lookupTask s.tasks id = some t → t.status = TaskStatus.failed →
      t.startTime.isSome = true →
      ∃ msg, t.errMsg = some msg ∧
        t.result = some (failedResult t.outputPath msg) ∧
        id ∈ s.completeCh ∧
        (Models.trimSpace t.outputPath ≠ "" →
          Models.EncoderResult.Validate (failedResult t.outputPath msg) =
            .error "failed result should not have output_path")) := by
  have hI := reachable_inv cons specs s h
  refine ⟨fun clock msg u => ⟨rfl, rfl⟩, ?_⟩
  intro id t hl hs hn
  obtain ⟨msg, h1, h2, h3⟩ := hI.failed_run id t hl hs hn
  refine ⟨msg, h1, h2, h3, ?_⟩
  intro htrim
  simp only [failedResult, Models.EncoderResult.Validate]
  rw [if_neg (by simp), if_neg (by simp), if_neg (by simp),
    if_pos (by simp [bne_iff_ne, htrim])]

/-- C3, witness: the amended theorem applied to the failing demonstration
run at task `a`. -/
theorem c3_witness :
    ∃ msg, demoFailedA.errMsg = some msg ∧
      demoFailedA.result = some (failedResult demoFailedA.outputPath msg) ∧
      "a" ∈ demoF3.completeCh ∧
      (Models.trimSpace demoFailedA.outputPath ≠ "" →
        Models.EncoderResult.Validate (failedResult demoFailedA.outputPath msg) =
          .error "failed result should not have output_path") :=
  (c3_failure_recording demoCons demoSpecs demoF3 demo_reachF3).2 "a" demoFailedA
    rfl rfl rfl

end Orchestrator

namespace Orchestrator

theorem closure_completed (cons : List (String × Nat)) (s : OrchState)
    (hI : Inv cons s) (a b : String) (hr : Reaches s.tasks a b)
    (ta : Task) (hla : lookupTask s.tasks a = some ta)
    (hstart : ta.status = .ready ∨ ta.status = .running ∨ ta.status = .completed ∨
      ta.startTime.isSome = true) :
    ∃ tb, lookupTask s.tasks b = some tb ∧ tb.status = TaskStatus.completed := by
  induction hr with
  | single hab =>
    obtain ⟨t, hl, hmem⟩ := hab
    rw [hla] at hl
    cases hl
    exact hI.deps_completed a ta hla hstart _ hmem
  | tail hab hbc ih =>
    obtain ⟨tb, hlb, hsb⟩ := ih
    obtain ⟨t, hl, hmem⟩ := hbc
    rw [hlb] at hl
    cases hl
    exact hI.deps_completed _ tb hlb (Or.inr (Or.inr (Or.inl hsb))) _ hmem

theorem reaches_lookup (tasks : List (String × Task)) (a b : String)
    (h : Reaches tasks a b) : ∃ ta, lookupTask tasks a = some ta := by
  cases h with
  | single hab => obtain ⟨t, hl, _⟩ := hab; exact ⟨t, hl⟩
  | tail hab _ =>
    obtain ⟨c, hc⟩ := Relation.TransGen.head'_iff.mp hab <;> first
      | (obtain ⟨⟨t, hl, _⟩, _⟩ := hc; exact ⟨t, hl⟩)

theorem hasFailedDependency_complete (tasks : List (String × Task)) (a f : String)
    (h : Reaches tasks a f) (tf : Task) (hlf : lookupTask tasks f = some tf)
    (hf : tf.status = TaskStatus.failed) :
    ∀ ta, lookupTask tasks a = some ta →
      ∃ fuel, hasFailedDependency fuel tasks ta = true := by
  induction h using Relation.TransGen.head_induction_on with
  | base hab =>
    intro ta hla
    obtain ⟨t, hl, hmem⟩ := hab
    rw [hla] at hl
    cases hl
    refine ⟨1, ?_⟩
    unfold hasFailedDependency
    rw [List.any_eq_true]
    refine ⟨f, hmem, ?_⟩
    rw [hlf]
    simp [hf]
  | ih hac hcf ih =>
    intro ta hla
    obtain ⟨tc, hlc⟩ := reaches_lookup tasks _ f hcf
    obtain ⟨fuel, hfd⟩ := ih tc hlc
    obtain ⟨t, hl, hmem⟩ := hac
    rw [hla] at hl
    cases hl
    refine ⟨fuel + 1, ?_⟩
    unfold hasFailedDependency
    rw [List.any_eq_true]
    refine ⟨_, hmem, ?_⟩
    rw [hlc]
    simp [hfd]

/-- C4.  In every reachable state, if task `F` is `Failed` and `F` lies in
the transitive dependency closure of task `B`, then `B` has never been
started (no start time — its command was never executed), `B` is neither
`Running` nor `Completed`; if `B` has terminated `Failed` it carries the
synthetic `"dependency failed"` result and was reported through the
completion channel; and while `B` is still `Pending` or `Ready` the
blocking transition of `allTasksCompleteOrBlocked` (mark `Failed` with
cause `"dependency failed"`, notify the channel) is enabled on `B`. -/
theorem c4_failed_dependency_closure (cons : List (String × Nat))
    (specs : List TaskSpec) (s : OrchState) (h : Reachable cons specs s)
    (idF idB : String) (tF tB : Task)
    (hlF : lookupTask s.tasks idF = some tF) (hF : tF.status = TaskStatus.failed)
    (hreach : Reaches s.tasks idB idF)
    (hlB : lookupTask s.tasks idB = some tB) :
    tB.startTime = none ∧ tB.status ≠ TaskStatus.running ∧
    tB.status ≠ TaskStatus.completed ∧
    (tB.status = TaskStatus.failed → tB.errMsg = some "dependency failed" ∧
      tB.result = some (finishResult tB (some "dependency failed")) ∧
      idB ∈ s.completeCh) ∧
    ((tB.status = TaskStatus.pending ∨ tB.status = TaskStatus.ready) →
      Step cons s (markFailedDep s idB)) := by
  have hI := reachable_inv cons specs s h
  have hnotstart : ¬ (tB.status = .ready ∨ tB.status = .running ∨
      tB.status = .completed ∨ tB.startTime.isSome = true) := by
    intro hstart
    obtain ⟨tf2, hlf2, hsf2⟩ :=
      closure_completed cons s hI idB idF hreach tB hlB hstart
    rw [hlF] at hlf2
    cases hlf2
    rw [hF] at hsf2
    exact TaskStatus.noConfusion hsf2
  have hstartnone : tB.startTime = none := by
    cases hx : tB.startTime with
    | none => rfl
    | some τ => exact absurd (Or.inr (Or.inr (Or.inr (by rw [hx]; rfl)))) hnotstart
  refine ⟨hstartnone, ?_, ?_, ?_, ?_⟩
  · intro hx; exact hnotstart (Or.inr (Or.inl hx))
  · intro hx; exact hnotstart (Or.inr (Or.inr (Or.inl hx)))
  · intro hx; exact hI.blocked_failed idB tB hlB hx hstartnone
  · intro hp
    obtain ⟨fuel, hfd⟩ :=
      hasFailedDependency_complete s.tasks idB idF hreach tF hlF hF tB hlB
    exact Step.markBlocked s idB tB fuel hlB hp hfd

end Orchestrator

namespace Orchestrator

/-- C4, witness: in the failing demonstration run (`a` failed, `b` depends
on `a`), `b` was never started, is neither running nor completed, and the
blocking transition is enabled on `b`. -/
theorem c4_witness :
    (initTask demoSpecB).startTime = none ∧
    (initTask demoSpecB).status ≠ TaskStatus.running ∧
    (initTask demoSpecB).status ≠ TaskStatus.completed ∧
    ((initTask demoSpecB).status = TaskStatus.failed →
      (initTask demoSpecB).errMsg = some "dependency failed" ∧
      (initTask demoSpecB).result =
        some (finishResult (initTask demoSpecB) (some "dependency failed")) ∧
      "b" ∈ demoF3.completeCh) ∧
    (((initTask demoSpecB).status = TaskStatus.pending ∨
        (initTask demoSpecB).status = TaskStatus.ready) →
      Step demoCons demoF3 (markFailedDep demoF3 "b")) :=
  c4_failed_dependency_closure demoCons demoSpecs demoF3 demo_reachF3 "a" "b"
    demoFailedA (initTask demoSpecB) rfl rfl
    (Relation.TransGen.single ⟨initTask demoSpecB, rfl, List.mem_singleton.mpr rfl⟩)
    rfl

end Orchestrator

namespace Orchestrator

/-- A node the DFS has finished with: visited and no longer on the recursion
stack. -/
def Black (s : DfsSt) (v : String) : Prop := v ∈ s.visited ∧ v ∉ s.recStack

/-- Certificate that the finished (black) region of a DFS state is closed
under dependency edges and admits a strictly decreasing rank — hence is
acyclic. -/
def GoodRank (tasks : List (String × Task)) (s : DfsSt) (rank : String → Nat) : Prop :=
  ∀ v, Black s v → ∀ d ∈ depsOf tasks v, Black s d ∧ rank d < rank v

theorem le_foldr_max (f : String → Nat) :
    ∀ (l : List String), ∀ x ∈ l, f x ≤ (l.map f).foldr max 0 := by
  intro l
  induction l with
  | nil => intro x hx; cases hx
  | cons a t ih =>
    intro x hx
    rcases List.mem_cons.mp hx with rfl | hx
    · exact le_max_left _ _
    · exact le_trans (ih x hx) (le_max_right _ _)

theorem dfs_false_good (tasks : List (String × Task)) : ∀ fuel : Nat,
    (∀ v s s2, dfsStep tasks fuel (.inl v) s = (false, s2) →
      v ∉ s.visited →
      (∀ x ∈ s.recStack, x ∈ s.visited) →
      ∀ rank, GoodRank tasks s rank →
      (∀ x ∈ s.visited, x ∈ s2.visited) ∧ s2.recStack = s.recStack ∧
        (∃ rank2, GoodRank tasks s2 rank2) ∧ Black s2 v) ∧
    (∀ l s s2, dfsStep tasks fuel (.inr l) s = (false, s2) →
      (∀ x ∈ s.recStack, x ∈ s.visited) →
      ∀ rank, GoodRank tasks s rank →
      (∀ x ∈ s.visited, x ∈ s2.visited) ∧ s2.recStack = s.recStack ∧
        (∃ rank2, GoodRank tasks s2 rank2) ∧ (∀ d ∈ l, Black s2 d)) := by
  intro fuel
  induction fuel with
  | zero =>
    constructor
    · intro v s s2 h
      exact absurd h (by simp [dfsStep])
    · intro l s s2 h
      exact absurd h (by simp [dfsStep])
  | succ n ih =>
    obtain ⟨ihl, ihr⟩ := ih
    constructor
    · intro v s s2 h hv hsub rank hrank
      simp only [dfsStep] at h
      cases hin : dfsStep tasks n (.inr (depsOf tasks v))
          ⟨v :: s.visited, v :: s.recStack⟩ with
      | mk b s' =>
        rw [hin] at h
        cases b
        · simp only [] at h
          injection h with h1 h2
          subst h2
          have hsub' : ∀ x ∈ (⟨v :: s.visited, v :: s.recStack⟩ : DfsSt).recStack,
              x ∈ (⟨v :: s.visited, v :: s.recStack⟩ : DfsSt).visited := by
            intro x hx
            rcases List.mem_cons.mp hx with rfl | hx
            · exact List.mem_cons_self _ _
            · exact List.mem_cons_of_mem _ (hsub x hx)
          have hrank' : GoodRank tasks ⟨v :: s.visited, v :: s.recStack⟩ rank := by
            intro x hbx d hd
            have hxv : x ≠ v := by
              intro hh
              exact hbx.2 (hh ▸ List.mem_cons_self _ _)
            have hbx' : Black s x :=
              ⟨(List.mem_cons.mp hbx.1).resolve_left hxv,
               fun hh => hbx.2 (List.mem_cons_of_mem _ hh)⟩
            obtain ⟨hbd, hrd⟩ := hrank x hbx' d hd
            have hdv : d ≠ v := by
              intro hh
              exact hv (hh ▸ hbd.1)
            refine ⟨⟨List.mem_cons_of_mem _ hbd.1, ?_⟩, hrd⟩
            intro hh
            rcases List.mem_cons.mp hh with hh | hh
            · exact hdv hh
            · exact hbd.2 hh
          obtain ⟨hmono, hstk, ⟨rank2, hgood2⟩, hblackdeps⟩ :=
            ihr (depsOf tasks v) _ s' hin hsub' rank hrank'
          have hstk2 : s'.recStack.erase v = s.recStack := by
            rw [hstk]
            exact List.erase_cons_head v s.recStack
          refine ⟨?_, hstk2, ?_, ?_⟩
          · intro x hx
            exact hmono x (List.mem_cons_of_mem _ hx)
          · refine ⟨fun x => if x = v
                then ((depsOf tasks v).map rank2).foldr max 0 + 1
                else rank2 x, ?_⟩
            intro x hbx d hd
            have hbx2 : x ∈ s'.visited ∧ x ∉ s.recStack := by
              constructor
              · exact hbx.1
              · intro hh
                exact hbx.2 (hstk2 ▸ hh)
            by_cases hxv : x = v
            · subst hxv
              have hbd := hblackdeps d hd
              have hdx : d ≠ x := by
                intro hh
                subst hh
                exact hbd.2 (hstk ▸ List.mem_cons_self _ _)
              refine ⟨⟨hbd.1, ?_⟩, ?_⟩
              · intro hh
                rw [hstk2] at hh
                exact hbd.2 (hstk ▸ List.mem_cons_of_mem _ hh)
              · simp only [if_neg hdx, if_pos rfl]
                exact Nat.lt_succ_of_le (le_foldr_max rank2 (depsOf tasks x) d hd)
            · have hbx' : Black s' x := by
                refine ⟨hbx2.1, ?_⟩
                rw [hstk]
                intro hh
                rcases List.mem_cons.mp hh with hh | hh
                · exact hxv hh
                · exact hbx2.2 hh
              obtain ⟨hbd, hrd⟩ := hgood2 x hbx' d hd
              have hdv : d ≠ v := by
                intro hh
                exact hbd.2 (hstk ▸ hh ▸ List.mem_cons_self _ _)
              refine ⟨⟨hbd.1, ?_⟩, ?_⟩
              · intro hh
                rw [hstk2] at hh
                exact hbd.2 (hstk ▸ List.mem_cons_of_mem _ hh)
              · simp only [if_neg hdv, if_neg hxv]
                exact hrd
          · refine ⟨hmono v (List.mem_cons_self _ _), ?_⟩
            rw [hstk2]
            intro hh
            exact hv (hsub v hh)
        · exact absurd h (by simp)
    · intro l s s2 h hsub rank hrank
      cases l with
      | nil =>
        simp only [dfsStep] at h
        injection h with h1 h2
        subst h2
        exact ⟨fun x hx => hx, rfl, ⟨rank, hrank⟩,
          fun d hd => absurd hd (List.not_mem_nil d)⟩
      | cons d rest =>
        simp only [dfsStep] at h
        by_cases hd : d ∈ s.visited
        · rw [if_pos hd] at h
          by_cases hds : d ∈ s.recStack
          · rw [if_pos hds] at h
            exact absurd h (by simp)
          · rw [if_neg hds] at h
            obtain ⟨hmono, hstk, hrank2, hblack⟩ := ihr rest s s2 h hsub rank hrank
            refine ⟨hmono, hstk, hrank2, ?_⟩
            intro d' hd'
            rcases List.mem_cons.mp hd' with rfl | hd'
            · exact ⟨hmono d' hd, by rw [hstk]; exact hds⟩
            · exact hblack d' hd'
        · rw [if_neg hd] at h
          cases hin : dfsStep tasks n (.inl d) s with
          | mk b s' =>
            rw [hin] at h
            cases b
            · simp only [] at h
              obtain ⟨hmono1, hstk1, ⟨rank2, hgood2⟩, hblackd⟩ :=
                ihl d s s' hin hd hsub rank hrank
              have hsub' : ∀ x ∈ s'.recStack, x ∈ s'.visited := by
                rw [hstk1]
                intro x hx
                exact hmono1 x (hsub x hx)
              obtain ⟨hmono2, hstk2, hrank3, hblackrest⟩ :=
                ihr rest s' s2 h hsub' rank2 hgood2
              refine ⟨fun x hx => hmono2 x (hmono1 x hx), by rw [hstk2, hstk1],
                hrank3, ?_⟩
              intro d' hd'
              rcases List.mem_cons.mp hd' with rfl | hd'
              · exact ⟨hmono2 d' hblackd.1, by rw [hstk2]; exact hblackd.2⟩
              · exact hblackrest d' hd'
            · exact absurd h (by simp)

end Orchestrator

namespace Orchestrator

theorem detectCycle_false_black (tasks : List (String × Task)) (fuel : Nat) :
    ∀ (order : List String) (s : DfsSt),
      detectCycle tasks fuel order s = false →
      s.recStack = [] →
      (∃ rank, GoodRank tasks s rank) →
      ∃ s2 : DfsSt, s2.recStack = [] ∧ (∃ rank2, GoodRank tasks s2 rank2) ∧
        (∀ x ∈ s.visited, x ∈ s2.visited) ∧ ∀ id ∈ order, id ∈ s2.visited := by
  intro order
  induction order with
  | nil =>
    intro s h hstk hrank
    exact ⟨s, hstk, hrank, fun x hx => hx, fun id hid => absurd hid (List.not_mem_nil id)⟩
  | cons id rest ih =>
    intro s h hstk hrank
    simp only [detectCycle] at h
    by_cases hv : id ∈ s.visited
    · rw [if_pos hv] at h
      obtain ⟨s2, h1, h2, h3, h4⟩ := ih s h hstk hrank
      refine ⟨s2, h1, h2, h3, ?_⟩
      intro x hx
      rcases List.mem_cons.mp hx with rfl | hx
      · exact h3 x hv
      · exact h4 x hx
    · rw [if_neg hv] at h
      cases hin : dfsStep tasks fuel (.inl id) s with
      | mk b s' =>
        rw [hin] at h
        cases b
        · simp only [] at h
          obtain ⟨rank, hrank⟩ := hrank
          obtain ⟨hmono, hstk1, hrank2, hblack⟩ :=
            (dfs_false_good tasks fuel).1 id s s' hin hv
              (by rw [hstk]; intro x hx; cases hx) rank hrank
          obtain ⟨s2, h1, h2, h3, h4⟩ := ih s' h (hstk1.trans hstk) hrank2
          refine ⟨s2, h1, h2, fun x hx => h3 x (hmono x hx), ?_⟩
          intro x hx
          rcases List.mem_cons.mp hx with rfl | hx
          · exact h3 x hblack.1
          · exact h4 x hx
        · exact absurd h (by simp)

theorem no_cycle_of_good (tasks : List (String × Task)) (s : DfsSt)
    (rank : String → Nat) (hg : GoodRank tasks s rank) (a : String)
    (hb : Black s a) (hcyc : Reaches tasks a a) : False := by
  have hdesc : ∀ b, Reaches tasks a b → Black s b ∧ rank b < rank a := by
    intro b hr
    induction hr with
    | single hab =>
      obtain ⟨t, hl, hmem⟩ := hab
      exact hg a hb _ (by unfold depsOf; rw [hl]; exact hmem)
    | tail hab hbc ih =>
      obtain ⟨hbb, hrb⟩ := ih
      obtain ⟨t, hl, hmem⟩ := hbc
      obtain ⟨hbc', hrc⟩ := hg _ hbb _ (by unfold depsOf; rw [hl]; exact hmem)
      exact ⟨hbc', lt_trans hrc hrb⟩
  exact absurd (hdesc a hcyc).2 (lt_irrefl _)

/-- C5.  `validateDAG` (and hence the validation prefix of `Execute`):
(i) an admitted task with a dependency id that refers to no admitted task
makes it return `UnknownDependency`; (ii) if every reference resolves and
the admitted graph has a directed cycle through a task id in the iteration
order, it returns `CycleDetected` — for every fuel; (iii) whenever
validation returns any error, no state whatsoever is reachable by an
`Execute` run: the call aborts before any task runs and produces no
results. -/
theorem c5_validate_dag (fuel : Nat) (tasks : List (String × Task))
    (order : List String) :
    ((∃ p ∈ tasks, ∃ d ∈ p.2.deps, lookupTask tasks d = none) →
      validateDAG fuel tasks order = .error .unknownDependency) ∧
    ((tasks.all (fun p => p.2.deps.all (fun d => (lookupTask tasks d).isSome))) = true →
      ∀ a ∈ order, Reaches tasks a a →
      validateDAG fuel tasks order = .error .cycleDetected) ∧
    (∀ (specs : List TaskSpec) (e : ValidationError),
      ExecuteValidation fuel specs order = .error e →
      ∀ (cons : List (String × Nat)) (s : OrchState),
        ¬ ExecReachable cons fuel specs order s) := by
  refine ⟨?_, ?_, ?_⟩
  · intro ⟨p, hp, d, hd, hnone⟩
    unfold validateDAG
    rw [if_neg]
    intro hall
    rw [List.all_eq_true] at hall
    have := hall p hp
    rw [List.all_eq_true] at this
    have := this d hd
    rw [hnone] at this
    exact Bool.noConfusion this
  · intro hall a ha hcyc
    unfold validateDAG
    rw [if_pos hall]
    cases hdc : detectCycle tasks fuel order ⟨[], []⟩ with
    | true => rw [if_pos rfl]
    | false =>
      exfalso
      obtain ⟨s2, hstk2, ⟨rank2, hgood2⟩, _, hcov⟩ :=
        detectCycle_false_black tasks fuel order ⟨[], []⟩ hdc rfl
          ⟨fun _ => 0, fun v hb => absurd hb.1 (List.not_mem_nil v)⟩
      have hba : Black s2 a := ⟨hcov a ha, by rw [hstk2]; intro hh; cases hh⟩
      exact no_cycle_of_good tasks s2 rank2 hgood2 a hba hcyc
  · intro specs e hval cons s hexec
    rw [hexec.1] at hval
    exact Except.noConfusion hval

end Orchestrator

namespace Orchestrator

/-- A two-task specification forming the directed cycle `x → y → x`. -/
def cycSpecX : TaskSpec := { id := "x", deps := ["y"], resource := "cpu", outputPath := "px" }

/-- Second node of the cycle. -/
def cycSpecY : TaskSpec := { id := "y", deps := ["x"], resource := "cpu", outputPath := "py" }

/-- The cyclic admitted task set. -/
def cycSpecs : List TaskSpec := [cycSpecX, cycSpecY]

/-- Its task table. -/
def cycTasks : List (String × Task) := (initState cycSpecs).tasks

/-- A one-task specification whose dependency refers to no admitted task. -/
def ghostSpecs : List TaskSpec :=
  [{ id := "u", deps := ["ghost"], resource := "cpu", outputPath := "pu" }]

/-- C5, witness: the unresolvable reference fails with `UnknownDependency`,
the concrete two-cycle fails with `CycleDetected`, and on the cyclic input
not even the initial state is reachable by an `Execute` run. -/
theorem c5_witness :
    validateDAG 4 (initState ghostSpecs).tasks ["u"] = .error .unknownDependency ∧
    validateDAG 4 cycTasks ["x", "y"] = .error .cycleDetected ∧
    ¬ ExecReachable [] 4 cycSpecs ["x", "y"] (initState cycSpecs) := by
  refine ⟨?_, ?_, ?_⟩
  · exact (c5_validate_dag 4 (initState ghostSpecs).tasks ["u"]).1
      ⟨("u", initTask { id := "u", deps := ["ghost"], resource := "cpu", outputPath := "pu" }),
        List.mem_singleton.mpr rfl, "ghost", List.mem_singleton.mpr rfl, rfl⟩
  · exact (c5_validate_dag 4 cycTasks ["x", "y"]).2.1 rfl "x"
      (List.mem_cons_self _ _)
      (Relation.TransGen.tail
        (Relation.TransGen.single ⟨initTask cycSpecX, rfl, List.mem_singleton.mpr rfl⟩)
        ⟨initTask cycSpecY, rfl, List.mem_singleton.mpr rfl⟩)
  · exact (c5_validate_dag 4 cycTasks ["x", "y"]).2.2 cycSpecs .cycleDetected rfl
      [] (initState cycSpecs)

end Orchestrator

namespace Orchestrator

theorem no_step_of_empty (cons : List (String × Nat)) (s s' : OrchState)
    (hstep : Step cons s s') (h : s.tasks = []) : False := by
  cases hstep with
  | promote id t hl hp hdm => rw [h] at hl; exact Option.noConfusion hl
  | dispatch id t hl hr hacq => rw [h] at hl; exact Option.noConfusion hl
  | finish id t err hl hr => rw [h] at hl; exact Option.noConfusion hl
  | markBlocked id t fuel hl hp hfd => rw [h] at hl; exact Option.noConfusion hl

/-- C6 (refuting evidence).  On an orchestrator with zero admitted tasks:
(i) validation succeeds, so `Execute` does not take the early error return;
(ii) the supervisor's terminal check `allTasksCompleteOrBlocked` immediately
reports `true` (vacuously — zero ready tasks, none running, no cycle), so
the Go scheduler loop exits without dispatching anything; (iii) no
transition at all is possible, so every reachable state is the initial one
and the completion channel never carries a message; (iv) the completion
handler's done-signal condition, checked only after receiving a `k`-th
message (`k ≥ 1`), is false for every such `k` when `totalTasks = 0` — so
`doneCh` is never signalled and the `<-doneCh` in `Execute` blocks forever:
`execute()` does **not** return, contrary to the claim. -/
theorem c6_zero_tasks_never_returns :
    (∀ fuel, validateDAG fuel (initState ([] : List TaskSpec)).tasks [] = .ok ()) ∧
    (∀ fuel, allTasksCompleteOrBlocked fuel (initState ([] : List TaskSpec)) [] =
      (initState ([] : List TaskSpec), true)) ∧
    (∀ (cons : List (String × Nat)) (s : OrchState),
      Reachable cons ([] : List TaskSpec) s →
      s = initState ([] : List TaskSpec) ∧ s.completeCh = []) ∧
    (∀ k, 1 ≤ k → handlerSignalsDone 0 k = false) := by
  refine ⟨fun fuel => rfl, fun fuel => rfl, ?_, ?_⟩
  · intro cons s h
    have hs : s = initState ([] : List TaskSpec) := by
      induction h with
      | refl => rfl
      | tail hr hstep ih =>
        exfalso
        exact no_step_of_empty cons _ _ hstep (by rw [ih]; rfl)
    exact ⟨hs, by rw [hs]; rfl⟩
  · intro k hk
    cases k with
    | zero => exact absurd hk (by decide)
    | succ n => rfl

/-- C6, witness: the evidence applied at the empty run — the only reachable
state is the initial one with an empty completion channel, and the first
conceivable done-check is negative. -/
theorem c6_witness :
    ((initState ([] : List TaskSpec)) = initState ([] : List TaskSpec) ∧
      (initState ([] : List TaskSpec)).completeCh = []) ∧
    handlerSignalsDone 0 1 = false :=
  ⟨c6_zero_tasks_never_returns.2.2.1 [] (initState ([] : List TaskSpec))
      Relation.ReflTransGen.refl,
   c6_zero_tasks_never_returns.2.2.2 1 (by decide)⟩

end Orchestrator
